import Mathlib

/-!
# Configuration merging, manager derivation and stage filtering

A shallow embedding of `lib/config/index.js` (`mergeChildConfig`, `filterConfig`,
`getManagerConfig`, `parseConfigs`) together with the fragment of JavaScript value
semantics these functions rely on: truthiness, own enumerable properties, object
spread, `Object.assign`, `delete`, `Array.prototype.concat`, base64 encoding and the
JSON round trip used by `clone`.

Conventions of the embedding.
* A JavaScript object is the list of its own enumerable properties in insertion order.
  A list that stands for an object has pairwise distinct keys; the reordering of
  integer-like keys done by JavaScript engines is not represented, and no statement
  below depends on key order.
* Numbers are integers: the code only inspects whether a number is truthy.
* Property reads and writes on configuration values see own properties (and `length`
  of arrays and strings). Members inherited from prototypes, and the setter behind the
  key `__proto__`, are not represented there: statements that depend on them say so in
  their hypotheses (`objectPrototypeMembers`, a key other than `__proto__`). The lookup
  in the default-host table does account for inherited members. Strings are indexed by
  character.
* The recursion of `mergeChildConfig` is bounded by a fuel argument that counts
  nested calls; `Fault.fuel` reports that the bound was reached.
* The option registry (`definitions.getOptions()`) and the manager registry
  (`get(manager, 'language')`, `getLanguageList()`, `getManagerList()`) belong to
  other modules and are parameters of the functions below; so are the host rules
  (`hostRules.defaults`, `hostRules.find`, and `hostRules.update`, whose calls are
  recorded in order), the flag `global.appMode` and the preset-resolved outputs of the
  four parsers.
-/

namespace Renovate

/-- JavaScript values that can occur in a configuration. -/
inductive JVal where
  | undefined : JVal
  | null : JVal
  | bool (b : Bool) : JVal
  | num (n : Int) : JVal
  | str (s : String) : JVal
  | arr (xs : List JVal) : JVal
  | obj (es : List (String × JVal)) : JVal
  deriving Inhabited

/-- Own enumerable properties of an object, in insertion order. -/
abbrev Obj := List (String × JVal)

/-- Ways in which a call can end without returning a value. -/
inductive Fault where
  | fuel : Fault
  | syntaxError : Fault
  | typeError : Fault
  deriving DecidableEq

/-- One entry of `definitions.getOptions()`; only the fields read by the code. -/
structure OptionDef where
  name : String
  mergeable : Bool
  type : String
  stage : Option String
  deriving DecidableEq

open JVal

/-- JavaScript truthiness (`ToBoolean`). -/
def truthy : JVal → Bool
  | undefined => false
  | null => false
  | .bool b => b
  | num n => n != 0
  | str s => s != ""
  | arr _ => true
  | obj _ => true

/-- Whether the value is an array. -/
def isArr : JVal → Bool
  | arr _ => true
  | _ => false

/-- Whether the value is a plain object. -/
def isObj : JVal → Bool
  | obj _ => true
  | _ => false

/-- The own property `k` of a plain object, if there is one. -/
def objFind : Obj → String → Option JVal
  | [], _ => none
  | (k', v) :: es, k => if k' = k then some v else objFind es k

/-- Property read `o[k]` on a plain object: `undefined` when `k` is not an own key. -/
def objGet (es : Obj) (k : String) : JVal :=
  match objFind es k with
  | some v => v
  | none => undefined

/-- Whether `k` is an own key of the object. -/
def objHas (es : Obj) (k : String) : Bool :=
  (objFind es k).isSome

/-- Assignment `o[k] = v`: an existing key keeps its position, a new key is appended. -/
def objSet : Obj → String → JVal → Obj
  | [], k, v => [(k, v)]
  | (k', v') :: es, k, v => if k' = k then (k, v) :: es else (k', v') :: objSet es k v

/-- Statement `delete o[k]` on a plain object. -/
def objDelete (es : Obj) (k : String) : Obj :=
  es.filter fun p => p.1 != k

/-- Array elements (or string characters) as index-keyed properties. -/
def indexed (xs : List JVal) : Obj :=
  xs.enum.map fun p => (toString p.1, p.2)

/-- The characters of a string as one-character string values. -/
def chars (s : String) : List JVal :=
  s.data.map fun c => str (String.singleton c)

/-- Own enumerable string-keyed properties of a value, as copied by object spread and
`Object.assign` (primitives other than strings, `null` and `undefined` have none). -/
def ownEntries : JVal → Obj
  | obj es => es
  | arr xs => indexed xs
  | str s => indexed (chars s)
  | _ => []

/-- Property read `v[k]` on a value that is neither `null` nor `undefined`. -/
def getProp (v : JVal) (k : String) : JVal :=
  match v with
  | obj es => objGet es k
  | arr xs => if k = "length" then num xs.length else objGet (indexed xs) k
  | str s => if k = "length" then num s.length else objGet (indexed (chars s)) k
  | _ => undefined

/-- Whether `k` is an own enumerable key of the value. -/
def hasOwn (v : JVal) (k : String) : Bool :=
  objHas (ownEntries v) k

/-- Call `Object.assign(target, source)` with the source given by its own entries;
also the effect of spreading `source` after `target` in an object literal. Every key is
written as an own property; for `Object.assign` that is what JavaScript does for every
key except `__proto__` on a target without such an own key. -/
def objectAssign (target source : Obj) : Obj :=
  source.foldl (fun acc p => objSet acc p.1 p.2) target

mutual
/-- JavaScript `ToString`, as applied by `String.prototype.concat`, by template
literals and by property keys. Numbers are printed in full decimal, as JavaScript does
for integers up to `2^53`; objects print as `[object Object]`, as they do unless they
carry an own `toString` key (see `textExact`). -/
def toStr : JVal → String
  | undefined => "undefined"
  | null => "null"
  | .bool b => if b then "true" else "false"
  | num n => toString n
  | str s => s
  | arr xs => joinStr xs
  | obj _ => "[object Object]"
/-- Call `Array.prototype.join` with the default separator. -/
def joinStr : List JVal → String
  | [] => ""
  | [x] => elemStr x
  | x :: y :: xs => elemStr x ++ "," ++ joinStr (y :: xs)
/-- The text of one array element inside `join`: empty for `null` and `undefined`. -/
def elemStr : JVal → String
  | undefined => ""
  | null => ""
  | .bool b => if b then "true" else "false"
  | num n => toString n
  | str s => s
  | arr xs => joinStr xs
  | obj _ => "[object Object]"
end

/-- Method call `recv.concat(arg)`: arrays append (an array argument is spread, any
other argument becomes one element), strings concatenate text, and every other
receiver has no `concat` member, so the call raises a `TypeError`. -/
def jsConcat : JVal → JVal → Except Fault JVal
  | arr xs, arr ys => .ok (arr (xs ++ ys))
  | arr xs, y => .ok (arr (xs ++ [y]))
  | str s, y => .ok (str (s ++ toStr y))
  | _, _ => .error Fault.typeError

/-- Expression `v || []`. -/
def orEmptyArray (v : JVal) : JVal :=
  if truthy v then v else arr []

mutual
/-- What `JSON.parse(JSON.stringify(v))` yields for a value in a nested position. -/
def cloneVal : JVal → JVal
  | undefined => null
  | null => null
  | .bool b => .bool b
  | num n => num n
  | str s => str s
  | arr xs => arr (cloneList xs)
  | obj es => obj (cloneEntries es)
/-- Array elements: `undefined` is serialised as `null`. -/
def cloneList : List JVal → List JVal
  | [] => []
  | x :: xs => cloneVal x :: cloneList xs
/-- Object properties: a property whose value is `undefined` is left out. -/
def cloneEntries : Obj → Obj
  | [] => []
  | (_, undefined) :: es => cloneEntries es
  | (k, v) :: es => (k, cloneVal v) :: cloneEntries es
end

/-- The source `clone = input => JSON.parse(JSON.stringify(input))`. For `undefined`
the serialisation is `undefined` and `JSON.parse` raises a `SyntaxError`. -/
def clone : JVal → Except Fault JVal
  | undefined => .error Fault.syntaxError
  | v => .ok (cloneVal v)

/-- Body of the loop `for (const option of definitions.getOptions())` in
`mergeChildConfig`; `recurse` is the nested call of `mergeChildConfig`. -/
def mergeOption (recurse : JVal → JVal → Except Fault JVal)
    (parentConfig childConfig : JVal) (config : Obj) (option : OptionDef) :
    Except Fault Obj :=
  if option.mergeable && truthy (getProp childConfig option.name) then
    match parentConfig with
    | null => .error Fault.typeError
    | _ =>
      if truthy (getProp parentConfig option.name) then
        if option.type = "array" then
          match jsConcat (orEmptyArray (getProp parentConfig option.name))
              (orEmptyArray (objGet config option.name)) with
          | .ok v => .ok (objSet config option.name v)
          | .error e => .error e
        else
          match recurse (getProp parentConfig option.name)
              (getProp childConfig option.name) with
          | .ok v => .ok (objSet config option.name v)
          | .error e => .error e
      else .ok config
  else .ok config

/-- The loop over the registry, threading the `config` under construction. -/
def mergeLoop (recurse : JVal → JVal → Except Fault JVal)
    (parentConfig childConfig : JVal) : List OptionDef → Obj → Except Fault Obj
  | [], config => .ok config
  | option :: rest, config =>
    match mergeOption recurse parentConfig childConfig config option with
    | .ok config1 => mergeLoop recurse parentConfig childConfig rest config1
    | .error e => .error e

/-- The source function `mergeChildConfig(parent, child)`. A falsy `child` returns
`parent` itself. Otherwise both are cloned, `config = { ...parentConfig,
...childConfig }`, every mergeable option that is truthy on both sides is
concatenated (type `array`) or merged by a nested call, and finally
`Object.assign(config, config.force)` is returned. -/
def mergeChildConfig (options : List OptionDef) : Nat → JVal → JVal → Except Fault JVal
  | 0, _, _ => .error Fault.fuel
  | fuel + 1, parent, child =>
    if truthy child then
      match clone parent, clone child with
      | .ok parentConfig, .ok childConfig =>
        match mergeLoop (fun p c => mergeChildConfig options fuel p c) parentConfig childConfig
            options (objectAssign (objectAssign [] (ownEntries parentConfig))
              (ownEntries childConfig)) with
        | .ok config => .ok (obj (objectAssign config (ownEntries (objGet config "force"))))
        | .error e => .error e
      | .error e, _ => .error e
      | _, .error e => .error e
    else .ok parent

/-- The stage order used by `filterConfig`. -/
def stages : List String := ["global", "repository", "package", "branch", "pr"]

/-- Call `xs.indexOf(s)`: the position of the first occurrence, `-1` when absent. -/
def indexOf (xs : List String) (s : String) : Int :=
  if s ∈ xs then (xs.indexOf s : Nat) else -1

/-- Call `stages.indexOf(option.stage)`; an option without a stage has
`option.stage === undefined`, which is not in the list. -/
def stageIndex (stage : Option String) : Int :=
  match stage with
  | some s => indexOf stages s
  | none => -1

/-- Body of the loop in `filterConfig`. -/
def filterOption (targetIndex : Int) (outputConfig : Obj) (option : OptionDef) : Obj :=
  if stageIndex option.stage != -1 && stageIndex option.stage < targetIndex then
    objDelete outputConfig option.name
  else outputConfig

/-- The source function `filterConfig(inputConfig, targetStage)`: a shallow copy of the
input from which every registry option of an earlier stage is deleted. -/
def filterConfig (options : List OptionDef) (inputConfig : JVal) (targetStage : String) :
    JVal :=
  obj (options.foldl (filterOption (indexOf stages targetStage))
    (objectAssign [] (ownEntries inputConfig)))

/-- Statement `delete v[k]`; the receiver is a plain object wherever the code uses it. -/
def deleteProp : JVal → String → JVal
  | obj es, k => obj (objDelete es k)
  | v, _ => v

/-- Statement `v[k] = w`; the receiver is a plain object wherever the code uses it. -/
def setProp : JVal → String → JVal → JVal
  | obj es, k, w => obj (objSet es k w)
  | v, _, _ => v

/-- The value of `get(manager, 'language')`: a language name or `undefined`. -/
def languageValue : Option String → JVal
  | some l => str l
  | none => undefined

/-- Outcome of `getManagerConfig`: the returned object, and the state of the
caller's `config` object once the call has returned. -/
structure ManagerResult where
  managerConfig : JVal
  config : JVal

/-- The source function `getManagerConfig(config, manager)`. The language block (when
the manager has a language) and the manager block are merged into `config`, every key
named after a known language or manager is deleted, and `language` and `manager` are
set. `mergeChildConfig` hands back its `parent` argument itself when the child is
falsy, so when neither block is truthy the deletions and assignments act on the
caller's object. -/
def getManagerConfig (options : List OptionDef) (getLanguage : String → Option String)
    (languageList managerList : List String) (fuel : Nat) (config : Obj)
    (manager : String) : Except Fault ManagerResult :=
  let language := languageValue (getLanguage manager)
  let languageBlock :=
    match getLanguage manager with
    | some l => objGet config l
    | none => undefined
  let merged1 :=
    if truthy language then mergeChildConfig options fuel (obj config) languageBlock
    else .ok (obj config)
  match merged1 with
  | .error e => .error e
  | .ok managerConfig1 =>
    match mergeChildConfig options fuel managerConfig1 (objGet config manager) with
    | .error e => .error e
    | .ok managerConfig2 =>
      let managerConfig := setProp (setProp
        ((languageList ++ managerList).foldl deleteProp managerConfig2)
        "language" language) "manager" (str manager)
      let fresh :=
        (truthy language && truthy languageBlock) || truthy (objGet config manager)
      .ok ⟨managerConfig, if fresh then obj config else managerConfig⟩

/-! ## The resolution pipeline `parseConfigs` -/

/-- Comparison `a === b` as used on `prFooter`. Primitives compare by value. An array
or object of the freshly merged config is never the same reference as a value of
`defaultConfig`, so such operands are never equal. -/
def strictEq : JVal → JVal → Bool
  | undefined, undefined => true
  | null, null => true
  | .bool a, .bool b => a == b
  | num a, num b => a == b
  | str a, str b => a == b
  | _, _ => false

/-- The base64 alphabet. -/
def base64Alphabet : List Char :=
  "ABCDEFGHIJKLMNOPQRSTUVWXYZabcdefghijklmnopqrstuvwxyz0123456789+/".data

/-- The base64 digit of a six-bit value. -/
def base64Digit (n : Nat) : Char :=
  base64Alphabet.getD n 'A'

/-- Base64 text of a byte sequence, with `=` padding. -/
def base64Bytes : List Nat → List Char
  | [] => []
  | [a] => [base64Digit (a / 4), base64Digit (a % 4 * 16), '=', '=']
  | [a, b] =>
    [base64Digit (a / 4), base64Digit (a % 4 * 16 + b / 16), base64Digit (b % 16 * 4), '=']
  | a :: b :: c :: rest =>
    base64Digit (a / 4) :: base64Digit (a % 4 * 16 + b / 16) ::
      base64Digit (b % 16 * 4 + c / 64) :: base64Digit (c % 64) :: base64Bytes rest

/-- The bytes that `Buffer.from(str, 'binary')` takes from one character: the low byte
of each of its UTF-16 code units, two units (a surrogate pair) for a character above
`0xFFFF`. -/
def binaryBytes (ch : Char) : List Nat :=
  if ch.toNat < 65536 then [ch.toNat % 256]
  else [(55296 + (ch.toNat - 65536) / 1024) % 256, (56320 + (ch.toNat - 65536) % 1024) % 256]

/-- The source `base64 = str => Buffer.from(str, 'binary').toString('base64')`. -/
def base64 (s : String) : String :=
  String.mk (base64Bytes (s.data.map binaryBytes).flatten)

/-- The own members of `Object.prototype`, which every plain object inherits. -/
def objectPrototypeMembers : List String :=
  ["constructor", "__defineGetter__", "__defineSetter__", "hasOwnProperty",
   "__lookupGetter__", "__lookupSetter__", "isPrototypeOf", "propertyIsEnumerable",
   "toString", "valueOf", "__proto__", "toLocaleString"]

/-- Property read `table[key]` on a plain object tests truthy through an inherited
member: the key is not an own key but names a member of `Object.prototype` (a function,
or the prototype itself for `__proto__`). -/
def inheritedMember (table : Obj) (key : String) : Bool :=
  !objHas table key && objectPrototypeMembers.contains key

mutual
/-- The value has the text that `toStr` gives it: every number in it is an integer of
magnitude at most `2^53`, and no object in text position has an own `toString` key. -/
def textExact : JVal → Bool
  | num n => decide (n.natAbs ≤ 9007199254740992)
  | arr xs => textExactList xs
  | obj es => !objHas es "toString"
  | _ => true
/-- Every element has exact text. -/
def textExactList : List JVal → Bool
  | [] => true
  | x :: xs => textExact x && textExactList xs
end

/-- Ways in which `parseConfigs` can end without returning a config. -/
inductive ParseError where
  | fault (f : Fault) : ParseError
  | unsupportedPlatform (platform : JVal) : ParseError
  | noAuthentication (endpoint platform : JVal) : ParseError

/-- Outcome of `parseConfigs`: the records passed to `hostRules.update` so far, in
call order, and the returned config or the error raised. -/
structure ParseResult where
  registered : List JVal
  outcome : Except ParseError JVal

/-- Lines 44 to 49 of `parseConfigs`: `merge(defaultConfig, merge(merge(fileConfig,
envConfig), cliConfig))`. The four configs are the preset-resolved outputs of the
parsers, which are plain objects. -/
def mergeSources (options : List OptionDef) (fuel : Nat)
    (defaultConfig fileConfig cliConfig envConfig : Obj) : Except Fault JVal :=
  match mergeChildConfig options fuel (obj fileConfig) (obj envConfig) with
  | .error e => .error e
  | .ok config1 =>
    match mergeChildConfig options fuel config1 (obj cliConfig) with
    | .error e => .error e
    | .ok combinedConfig => mergeChildConfig options fuel (obj defaultConfig) combinedConfig

/-- Lines 51 to 53: `if (config.prFooter !== defaultConfig.prFooter)
config.customPrFooter = true`. -/
def markCustomPrFooter (defaultConfig : Obj) (config : JVal) : JVal :=
  if strictEq (getProp config "prFooter") (objGet defaultConfig "prFooter") then config
  else setProp config "customPrFooter" (.bool true)

/-- Lines 55 to 57: `if (config.forceCli) config = mergeChildConfig(config, { force:
{ ...cliConfig } })`. -/
def applyForceCli (options : List OptionDef) (fuel : Nat) (cliConfig : Obj)
    (config : JVal) : Except Fault JVal :=
  if truthy (getProp config "forceCli") then
    mergeChildConfig options fuel config (obj [("force", obj (objectAssign [] cliConfig))])
  else .ok config

/-- Lines 44 to 57 of `parseConfigs`: the config handed to the platform and
authentication check. -/
def resolveConfig (options : List OptionDef) (fuel : Nat)
    (defaultConfig fileConfig cliConfig envConfig : Obj) : Except Fault JVal :=
  match mergeSources options fuel defaultConfig fileConfig cliConfig envConfig with
  | .error e => .error e
  | .ok config => applyForceCli options fuel cliConfig (markCustomPrFooter defaultConfig config)

/-- The token computed at lines 91 to 96: derived from `username` and `password` when
both are truthy, otherwise `config.token`. -/
def authToken (config : JVal) : JVal :=
  if truthy (getProp config "username") && truthy (getProp config "password") then
    str (base64 (toStr (getProp config "username") ++ ":" ++
      toStr (getProp config "password")))
  else getProp config "token"

/-- The endpoint computed at line 90: `config.endpoint || platformInfo.endpoint`. -/
def authEndpoint (platformInfo config : JVal) : JVal :=
  if truthy (getProp config "endpoint") then getProp config "endpoint"
  else getProp platformInfo "endpoint"

/-- The record pushed onto `config.hostRules` at lines 102 to 108. -/
def authRecord (platformInfo config : JVal) : JVal :=
  obj [("platform", getProp config "platform"),
    ("endpoint", authEndpoint platformInfo config),
    ("username", getProp config "username"),
    ("password", getProp config "password"),
    ("token", authToken config)]

/-- Lines 85 to 129 of `parseConfigs`: platform and authentication check. `defaults` is
the table `hostRules.defaults`, a plain object, `find` the lookup `hostRules.find` on
the records registered so far, `appMode` the flag `global.appMode`. The read
`hostRules.defaults[platform]` is truthy for an own key with a truthy value and also
for a name inherited from `Object.prototype`; such an inherited member has no
`endpoint`, like `undefined` in `authEndpoint`. -/
def checkAuthentication (defaults : Obj) (find : List JVal → JVal → JVal → JVal)
    (appMode : Bool) (registered : List JVal) (config : JVal) : ParseResult :=
  let platform := getProp config "platform"
  let platformInfo := objGet defaults (toStr platform)
  if truthy platformInfo || inheritedMember defaults (toStr platform) then
    let endpoint := authEndpoint platformInfo config
    let token := authToken config
    if truthy token then
      match getProp config "hostRules" with
      | arr rules =>
        let registered1 := registered ++ (rules ++ [authRecord platformInfo config])
        let config1 := deleteProp (deleteProp (deleteProp (deleteProp config "hostRules")
          "token") "username") "password"
        let credentials := find registered1 (obj [("platform", platform)])
          (obj [("platform", platform),
            ("endpoint", if truthy endpoint then endpoint else getProp platformInfo "endpoint"),
            ("token", token)])
        let registered2 :=
          if appMode then registered1
          else registered1 ++
            [obj (objSet (objectAssign [] (ownEntries credentials)) "default" (.bool true))]
        ⟨registered2, .ok config1⟩
      | _ => ⟨registered, .error (ParseError.fault Fault.typeError)⟩
    else ⟨registered, .error (ParseError.noAuthentication endpoint platform)⟩
  else ⟨registered, .error (ParseError.unsupportedPlatform platform)⟩

/-- The source function `parseConfigs(env, argv)`, from the preset-resolved configs of
the four parsers on: merge, `customPrFooter` marker, `forceCli` layer, platform and
authentication check, removal of the log file entries. The logger calls have no effect
on the result. -/
def parseConfigs (options : List OptionDef) (fuel : Nat) (defaults : Obj)
    (find : List JVal → JVal → JVal → JVal) (appMode : Bool) (registered : List JVal)
    (defaultConfig fileConfig cliConfig envConfig : Obj) : ParseResult :=
  match resolveConfig options fuel defaultConfig fileConfig cliConfig envConfig with
  | .error e => ⟨registered, .error (ParseError.fault e)⟩
  | .ok config =>
    match checkAuthentication defaults find appMode registered config with
    | ⟨registered1, .ok config1⟩ =>
      ⟨registered1, .ok (deleteProp (deleteProp config1 "logFile") "logFileLevel")⟩
    | ⟨registered1, .error e⟩ => ⟨registered1, .error e⟩

/-- A default-host table with one platform, used to run `parseConfigs`. -/
def sampleDefaults : Obj :=
  [("github", obj [("name", str "GitHub"), ("endpoint", str "https://api.github.com/")])]

/-- A `hostRules.find` that always answers with the fallback. -/
def sampleFind (_registered : List JVal) (_query fallback : JVal) : JVal := fallback

/-! ## Well-formed configurations -/

mutual
/-- A JSON value: no `undefined` anywhere and distinct keys in every object. The JSON
round trip of `clone` leaves exactly these values as they are. -/
def wellFormed : JVal → Bool
  | undefined => false
  | arr xs => wellFormedList xs
  | obj es => decide ((es.map Prod.fst).Nodup) && wellFormedEntries es
  | _ => true
/-- Every element is well formed. -/
def wellFormedList : List JVal → Bool
  | [] => true
  | x :: xs => wellFormed x && wellFormedList xs
/-- Every property value is well formed. -/
def wellFormedEntries : Obj → Bool
  | [] => true
  | (_, v) :: es => wellFormed v && wellFormedEntries es
end

/-- The registry declares `k` as a mergeable option of type `array`. -/
def arrayOption (options : List OptionDef) (k : String) : Bool :=
  options.any fun o => o.mergeable && o.name == k && o.type == "array"

/-- The registry declares `k` as a mergeable option of another type. -/
def objectOption (options : List OptionDef) (k : String) : Bool :=
  options.any fun o => o.mergeable && o.name == k && o.type != "array"

mutual
/-- A configuration object typed as the registry says: at every level, a truthy value
of a mergeable `array` option is an array, and a truthy value of any other mergeable
option, or of the `force` block, is again such a configuration object. -/
def conforms (options : List OptionDef) : JVal → Bool
  | obj es => conformsEntries options es
  | _ => false
/-- The typing condition on each property of a configuration object. -/
def conformsEntries (options : List OptionDef) : Obj → Bool
  | [] => true
  | (k, v) :: es =>
    (!truthy v ||
      ((!arrayOption options k || isArr v) &&
       (!(objectOption options k || k == "force") || conforms options v))) &&
    conformsEntries options es
end

/-- The typing condition that `conforms` imposes on the property `k` with value `v`. -/
def entryConforms (options : List OptionDef) (k : String) (v : JVal) : Bool :=
  !truthy v ||
    ((!arrayOption options k || isArr v) &&
     (!(objectOption options k || k == "force") || conforms options v))

mutual
/-- Nesting depth of a value: the number of nested calls of `mergeChildConfig` that a
conforming parent can cause is bounded by it. -/
def depth : JVal → Nat
  | arr xs => depthList xs + 1
  | obj es => depthEntries es + 1
  | _ => 0
/-- The largest depth among the elements. -/
def depthList : List JVal → Nat
  | [] => 0
  | x :: xs => max (depth x) (depthList xs)
/-- The largest depth among the property values. -/
def depthEntries : Obj → Nat
  | [] => 0
  | (_, v) :: es => max (depth v) (depthEntries es)
end

mutual
/-- A configuration object whose mergeable options hold values of their declared type:
at every level, a truthy value of a mergeable `array` option is an array and a truthy
value of any other mergeable option is again such an object. Force blocks are not
constrained. -/
def typed (options : List OptionDef) : JVal → Bool
  | obj es => typedEntries options es
  | _ => false
/-- The typing condition of `typed` on each property. -/
def typedEntries (options : List OptionDef) : Obj → Bool
  | [] => true
  | (k, v) :: es =>
    (!truthy v ||
      ((!arrayOption options k || isArr v) &&
       (!objectOption options k || typed options v))) &&
    typedEntries options es
end

/-- The typing condition that `typed` imposes on the property `k` with value `v`. -/
def entryTyped (options : List OptionDef) (k : String) (v : JVal) : Bool :=
  !truthy v ||
    ((!arrayOption options k || isArr v) &&
     (!objectOption options k || typed options v))

mutual
/-- A child configuration whose nested blocks are objects: at every level, a truthy
value of a mergeable option of a type other than `array` is again such an object. -/
def nestedObjects (options : List OptionDef) : JVal → Bool
  | obj es => nestedEntries options es
  | _ => false
/-- The condition of `nestedObjects` on each property. -/
def nestedEntries (options : List OptionDef) : Obj → Bool
  | [] => true
  | (k, v) :: es =>
    (!truthy v || !objectOption options k || nestedObjects options v) &&
    nestedEntries options es
end

/-- A property is well formed, typed as the registry says for its key, and of depth
at most `d`. -/
def entryGood (options : List OptionDef) (d : Nat) (p : String × JVal) : Prop :=
  wellFormed p.2 = true ∧ entryConforms options p.1 p.2 = true ∧ depth p.2 ≤ d

/-- An object with distinct keys all of whose properties are good in the sense of
`entryGood`. -/
def objGood (options : List OptionDef) (d : Nat) (es : Obj) : Prop :=
  (es.map Prod.fst).Nodup ∧ ∀ p ∈ es, entryGood options d p

/-! ## The stage order in the words of the specification -/

/-- Position of a stage in the total order `global < repository < package < branch <
pr` of the specification; any other name has no position. -/
def stageRank : String → Option Nat
  | "global" => some 0
  | "repository" => some 1
  | "package" => some 2
  | "branch" => some 3
  | "pr" => some 4
  | _ => none

/-- Stage `s` is one of the five stages and strictly precedes stage `t` in the order of
the specification. -/
def stagePrecedes (s t : String) : Bool :=
  match stageRank s, stageRank t with
  | some i, some j => i < j
  | _, _ => false

/-- Position of a stage in the order of the specification as an integer, an
unrecognised stage counting as earlier than all five. -/
def stagePosition (s : String) : Int :=
  match stageRank s with
  | some i => (i : Int)
  | none => -1

/-- Whichever of the two stages comes later in the order of the specification. -/
def laterStage (s t : String) : String :=
  if stagePosition s ≤ stagePosition t then t else s

/-- Some registry option named `k` is deleted by `filterConfig` for the target index
`targetIndex`. -/
def stageRemoves (options : List OptionDef) (targetIndex : Int) (k : String) : Bool :=
  options.any fun o =>
    o.name == k && (stageIndex o.stage != -1 && decide (stageIndex o.stage < targetIndex))

/-! ## Sample registry -/

/-- A small registry used to run the functions on concrete inputs: `a` is a mergeable
array option, `o` a mergeable object option, `x`, `y` and `z` are plain options. -/
def sampleOptions : List OptionDef :=
  [⟨"a", true, "array", some "package"⟩, ⟨"o", true, "object", some "repository"⟩,
   ⟨"x", false, "string", some "global"⟩, ⟨"y", false, "string", some "branch"⟩,
   ⟨"z", false, "string", none⟩]

/-! ## Properties of the object primitives -/

theorem objFind_objSet (es : Obj) (k : String) (v : JVal) (j : String) :
    objFind (objSet es k v) j = if k = j then some v else objFind es j := by
  induction es with
  | nil => simp [objSet, objFind]
  | cons p es ih =>
    obtain ⟨k1, v1⟩ := p
    by_cases h1 : k1 = k
    · subst h1
      by_cases h2 : k1 = j <;> simp [objSet, objFind, h2]
    · by_cases h2 : k1 = j
      · subst h2
        simp [objSet, objFind, h1, Ne.symm h1]
      · simp [objSet, objFind, h1, h2, ih]

theorem objFind_objSet_same (es : Obj) (k : String) (v : JVal) :
    objFind (objSet es k v) k = some v := by
  simp [objFind_objSet]

theorem objFind_objSet_other (es : Obj) (k : String) (v : JVal) (j : String) (h : k ≠ j) :
    objFind (objSet es k v) j = objFind es j := by
  simp [objFind_objSet, h]

theorem objFind_objDelete (es : Obj) (k j : String) :
    objFind (objDelete es k) j = if k = j then none else objFind es j := by
  induction es with
  | nil => simp [objDelete, objFind]
  | cons p es ih =>
    obtain ⟨k1, v1⟩ := p
    simp only [objDelete] at ih
    by_cases h1 : k1 = k
    · subst h1
      by_cases h2 : k1 = j
      · subst h2
        simpa [objDelete, objFind] using ih
      · simp [objDelete, objFind, h2, ih]
    · by_cases h2 : k1 = j
      · subst h2
        simp [objDelete, objFind, h1, Ne.symm h1, List.filter_cons]
      · simp [objDelete, objFind, h1, h2, ih, List.filter_cons]

theorem objFind_eq_none_iff (es : Obj) (k : String) :
    objFind es k = none ↔ k ∉ es.map Prod.fst := by
  induction es with
  | nil => simp [objFind]
  | cons p es ih =>
    obtain ⟨k1, v1⟩ := p
    by_cases h : k1 = k
    · simp [objFind, h]
    · simp [objFind, h, ih, Ne.symm h]

theorem mem_of_objFind {es : Obj} {k : String} {v : JVal} (h : objFind es k = some v) :
    (k, v) ∈ es := by
  induction es with
  | nil => simp [objFind] at h
  | cons p es ih =>
    obtain ⟨k1, v1⟩ := p
    by_cases h1 : k1 = k
    · simp [objFind, h1] at h
      simp [h1, h]
    · simp [objFind, h1] at h
      exact List.mem_cons_of_mem _ (ih h)

theorem objFind_of_mem {es : Obj} {k : String} {v : JVal}
    (hnd : (es.map Prod.fst).Nodup) (h : (k, v) ∈ es) : objFind es k = some v := by
  induction es with
  | nil => simp at h
  | cons p es ih =>
    obtain ⟨k1, v1⟩ := p
    simp only [List.map_cons, List.nodup_cons] at hnd
    rcases List.mem_cons.mp h with h1 | h1
    · cases h1
      simp [objFind]
    · have hk : k1 ≠ k := by
        intro hk
        subst hk
        exact hnd.1 (List.mem_map.mpr ⟨(k1, v), h1, rfl⟩)
      simp [objFind, hk, ih hnd.2 h1]

theorem objFind_objectAssign_absent (source target : Obj) (k : String)
    (h : objFind source k = none) :
    objFind (objectAssign target source) k = objFind target k := by
  induction source generalizing target with
  | nil => simp [objectAssign]
  | cons p source ih =>
    obtain ⟨k1, v1⟩ := p
    have h1 : k1 ≠ k := by
      intro hk
      simp [objFind, hk] at h
    have h2 : objFind source k = none := by
      simpa [objFind, h1] using h
    have := ih (objSet target k1 v1) h2
    simp only [objectAssign, List.foldl_cons] at this ⊢
    rw [this, objFind_objSet_other _ _ _ _ h1]

theorem objFind_objectAssign_present (source target : Obj) (k : String) (v : JVal)
    (hnd : (source.map Prod.fst).Nodup) (h : objFind source k = some v) :
    objFind (objectAssign target source) k = some v := by
  induction source generalizing target with
  | nil => simp [objFind] at h
  | cons p source ih =>
    obtain ⟨k1, v1⟩ := p
    simp only [List.map_cons, List.nodup_cons] at hnd
    by_cases h1 : k1 = k
    · subst h1
      have hv : v1 = v := by simpa [objFind] using h
      subst hv
      have habs : objFind source k1 = none := (objFind_eq_none_iff _ _).mpr hnd.1
      have := objFind_objectAssign_absent source (objSet target k1 v1) k1 habs
      simp only [objectAssign, List.foldl_cons] at this ⊢
      rw [this, objFind_objSet_same]
    · have h2 : objFind source k = some v := by
        simpa [objFind, h1] using h
      have := ih (objSet target k1 v1) hnd.2 h2
      simpa only [objectAssign, List.foldl_cons] using this

theorem objFind_objectAssign (source target : Obj) (k : String)
    (hnd : (source.map Prod.fst).Nodup) :
    objFind (objectAssign target source) k =
      match objFind source k with
      | some v => some v
      | none => objFind target k := by
  cases h : objFind source k with
  | none => simpa using objFind_objectAssign_absent source target k h
  | some v => simpa using objFind_objectAssign_present source target k v hnd h

theorem objSet_append_new (es : Obj) (k : String) (v : JVal)
    (h : k ∉ es.map Prod.fst) : objSet es k v = es ++ [(k, v)] := by
  induction es with
  | nil => simp [objSet]
  | cons p es ih =>
    obtain ⟨k1, v1⟩ := p
    simp only [List.map_cons, List.mem_cons, not_or] at h
    simp [objSet, Ne.symm h.1, ih h.2]

theorem objectAssign_append (source target : Obj)
    (hnd : ((target ++ source).map Prod.fst).Nodup) :
    objectAssign target source = target ++ source := by
  induction source generalizing target with
  | nil => simp [objectAssign]
  | cons p source ih =>
    obtain ⟨k1, v1⟩ := p
    have hk : k1 ∉ target.map Prod.fst := by
      intro hk
      have h2 := hnd
      simp only [List.map_append, List.map_cons] at h2
      have := (List.nodup_append.mp h2).2.2
      exact this hk (List.mem_cons_self _ _)
    have hnd2 : (((target ++ [(k1, v1)]) ++ source).map Prod.fst).Nodup := by
      simpa using hnd
    have := ih (target ++ [(k1, v1)]) hnd2
    simp only [objectAssign, List.foldl_cons] at this ⊢
    rw [objSet_append_new _ _ _ hk, this]
    simp

theorem objectAssign_nil_left (source : Obj) (hnd : (source.map Prod.fst).Nodup) :
    objectAssign [] source = source := by
  simpa using objectAssign_append source [] (by simpa using hnd)

/-! ## Properties of well-formed and conforming values -/

theorem wellFormedEntries_iff (es : Obj) :
    wellFormedEntries es = true ↔ ∀ p ∈ es, wellFormed p.2 = true := by
  induction es with
  | nil => simp [wellFormedEntries]
  | cons p es ih =>
    obtain ⟨k1, v1⟩ := p
    simp [wellFormedEntries, ih]

theorem wellFormed_obj (es : Obj) :
    wellFormed (obj es) = true ↔
      (es.map Prod.fst).Nodup ∧ ∀ p ∈ es, wellFormed p.2 = true := by
  simp [wellFormed, wellFormedEntries_iff]

mutual
theorem cloneVal_of_wellFormed : ∀ v : JVal, wellFormed v = true → cloneVal v = v
  | undefined, h => by simp [wellFormed] at h
  | null, _ => by simp [cloneVal]
  | .bool _, _ => by simp [cloneVal]
  | num _, _ => by simp [cloneVal]
  | str _, _ => by simp [cloneVal]
  | arr xs, h => by
    simp only [wellFormed] at h
    simp [cloneVal, cloneList_of_wellFormed xs h]
  | obj es, h => by
    simp only [wellFormed, Bool.and_eq_true] at h
    simp [cloneVal, cloneEntries_of_wellFormed es h.2]
theorem cloneList_of_wellFormed : ∀ xs : List JVal, wellFormedList xs = true → cloneList xs = xs
  | [], _ => by simp [cloneList]
  | x :: xs, h => by
    simp only [wellFormedList, Bool.and_eq_true] at h
    simp [cloneList, cloneVal_of_wellFormed x h.1, cloneList_of_wellFormed xs h.2]
theorem cloneEntries_of_wellFormed : ∀ es : Obj, wellFormedEntries es = true → cloneEntries es = es
  | [], _ => by simp [cloneEntries]
  | (k, v) :: es, h => by
    simp only [wellFormedEntries, Bool.and_eq_true] at h
    have h1 := cloneVal_of_wellFormed v h.1
    have h2 := cloneEntries_of_wellFormed es h.2
    cases v with
    | undefined => simp [wellFormed] at h
    | null => simp [cloneEntries, h2, cloneVal]
    | bool b => simp [cloneEntries, h2, cloneVal]
    | num n => simp [cloneEntries, h2, cloneVal]
    | str s => simp [cloneEntries, h2, cloneVal]
    | arr xs => simp [cloneEntries, h2, h1]
    | obj fs => simp [cloneEntries, h2, h1]
end

theorem clone_of_wellFormed (v : JVal) (h : wellFormed v = true) : clone v = .ok v := by
  cases v with
  | undefined => simp [wellFormed] at h
  | null => simp [clone, cloneVal]
  | bool b => simp [clone, cloneVal]
  | num n => simp [clone, cloneVal]
  | str s => simp [clone, cloneVal]
  | arr xs => simp [clone, cloneVal_of_wellFormed _ h]
  | obj fs => simp [clone, cloneVal_of_wellFormed _ h]

theorem clone_of_truthy (v : JVal) (h : truthy v = true) : clone v = .ok (cloneVal v) := by
  cases v <;> first | rfl | simp [truthy] at h

theorem wellFormed_objGet (es : Obj) (k : String)
    (h : wellFormed (obj es) = true) (ht : truthy (objGet es k) = true) :
    wellFormed (objGet es k) = true := by
  unfold objGet at ht ⊢
  cases hf : objFind es k with
  | none => simp [hf, truthy] at ht
  | some v =>
    simp only [hf]
    exact ((wellFormed_obj es).mp h).2 _ (mem_of_objFind hf)

theorem conformsEntries_iff (options : List OptionDef) (es : Obj) :
    conformsEntries options es = true ↔
      ∀ p ∈ es, entryConforms options p.1 p.2 = true := by
  induction es with
  | nil => simp [conformsEntries]
  | cons p es ih =>
    obtain ⟨k1, v1⟩ := p
    simp only [conformsEntries, Bool.and_eq_true, ih, List.mem_cons, forall_eq_or_imp,
      entryConforms]

theorem conforms_obj (options : List OptionDef) (es : Obj) :
    conforms options (obj es) = true ↔
      ∀ p ∈ es, entryConforms options p.1 p.2 = true := by
  simp [conforms, conformsEntries_iff]

theorem isObj_of_conforms {options : List OptionDef} {v : JVal}
    (h : conforms options v = true) : ∃ es, v = obj es := by
  cases v <;> first | exact ⟨_, rfl⟩ | simp [conforms] at h

theorem entryConforms_objGet (options : List OptionDef) (es : Obj) (k : String)
    (h : conforms options (obj es) = true) :
    entryConforms options k (objGet es k) = true := by
  unfold objGet
  cases hf : objFind es k with
  | none => simp [entryConforms, truthy]
  | some v => exact (conforms_obj options es).mp h _ (mem_of_objFind hf)

theorem arrayOption_of_mem {options : List OptionDef} {o : OptionDef}
    (hmem : o ∈ options) (hm : o.mergeable = true) (ht : o.type = "array") :
    arrayOption options o.name = true := by
  simp only [arrayOption, List.any_eq_true]
  exact ⟨o, hmem, by simp [hm, ht]⟩

theorem objectOption_of_mem {options : List OptionDef} {o : OptionDef}
    (hmem : o ∈ options) (hm : o.mergeable = true) (ht : o.type ≠ "array") :
    objectOption options o.name = true := by
  simp only [objectOption, List.any_eq_true]
  exact ⟨o, hmem, by simp [hm, ht]⟩

theorem depthEntries_ge (es : Obj) (p : String × JVal) (h : p ∈ es) :
    depth p.2 ≤ depthEntries es := by
  induction es with
  | nil => simp at h
  | cons q es ih =>
    obtain ⟨k1, v1⟩ := q
    rcases List.mem_cons.mp h with h1 | h1
    · subst h1
      simp [depthEntries]
    · have := ih h1
      simp only [depthEntries]
      omega

theorem depth_objGet_lt (es : Obj) (k : String) : depth (objGet es k) < depth (obj es) := by
  unfold objGet
  cases hf : objFind es k with
  | none => simp [depth]
  | some v =>
    have := depthEntries_ge es _ (mem_of_objFind hf)
    simp only [depth]
    simp only at this
    omega

/-! ## The loop over the registry -/

theorem mergeOption_unmerged {recurse : JVal → JVal → Except Fault JVal}
    {pc cc : JVal} {cfg cfg1 : Obj} {o : OptionDef}
    (h : mergeOption recurse pc cc cfg o = .ok cfg1)
    (hskip : ¬(o.mergeable = true ∧ truthy (getProp cc o.name) = true ∧
      truthy (getProp pc o.name) = true)) : cfg1 = cfg := by
  unfold mergeOption at h
  by_cases h1 : (o.mergeable && truthy (getProp cc o.name)) = true
  · have h2 : truthy (getProp pc o.name) = false := by
      simp only [Bool.and_eq_true] at h1
      cases ht : truthy (getProp pc o.name) with
      | false => rfl
      | true => exact absurd ⟨h1.1, h1.2, ht⟩ hskip
    rw [if_pos h1] at h
    cases pc <;> simp_all
  · rw [if_neg h1] at h
    cases h
    rfl

theorem mergeOption_objFind_other {recurse : JVal → JVal → Except Fault JVal}
    {pc cc : JVal} {cfg cfg1 : Obj} {o : OptionDef} {k : String}
    (h : mergeOption recurse pc cc cfg o = .ok cfg1) (hne : o.name ≠ k) :
    objFind cfg1 k = objFind cfg k := by
  unfold mergeOption at h
  by_cases h1 : (o.mergeable && truthy (getProp cc o.name)) = true
  · rw [if_pos h1] at h
    by_cases h2 : truthy (getProp pc o.name) = true
    · by_cases h3 : o.type = "array"
      · cases hc : jsConcat (orEmptyArray (getProp pc o.name))
            (orEmptyArray (objGet cfg o.name)) with
        | error e => cases pc <;> simp_all
        | ok v =>
          have : cfg1 = objSet cfg o.name v := by
            cases pc <;> simp_all
          rw [this, objFind_objSet_other _ _ _ _ hne]
      · cases hc : recurse (getProp pc o.name) (getProp cc o.name) with
        | error e => cases pc <;> simp_all
        | ok v =>
          have : cfg1 = objSet cfg o.name v := by
            cases pc <;> simp_all
          rw [this, objFind_objSet_other _ _ _ _ hne]
    · have : cfg1 = cfg := by
        cases pc <;> simp_all
      rw [this]
  · rw [if_neg h1] at h
    cases h
    rfl

theorem mergeLoop_objFind_other {recurse : JVal → JVal → Except Fault JVal}
    {pc cc : JVal} {k : String} (options : List OptionDef) (cfg cfg1 : Obj)
    (h : mergeLoop recurse pc cc options cfg = .ok cfg1)
    (hskip : ∀ o ∈ options, o.name = k →
      ¬(o.mergeable = true ∧ truthy (getProp cc o.name) = true ∧
        truthy (getProp pc o.name) = true)) :
    objFind cfg1 k = objFind cfg k := by
  induction options generalizing cfg with
  | nil =>
    simp only [mergeLoop] at h
    cases h
    rfl
  | cons o rest ih =>
    simp only [mergeLoop] at h
    cases hstep : mergeOption recurse pc cc cfg o with
    | error e => simp [hstep] at h
    | ok cfg0 =>
      simp only [hstep] at h
      have hrest := ih cfg0 h (fun o1 ho1 => hskip o1 (List.mem_cons_of_mem _ ho1))
      rw [hrest]
      by_cases hk : o.name = k
      · have := mergeOption_unmerged hstep (hskip o (List.mem_cons_self _ _) hk)
        rw [this]
      · exact mergeOption_objFind_other hstep hk

theorem getProp_obj (es : Obj) (k : String) : getProp (obj es) k = objGet es k := rfl

theorem mergeOption_obj (recurse : JVal → JVal → Except Fault JVal)
    (ps : Obj) (cc : JVal) (cfg : Obj) (o : OptionDef) :
    mergeOption recurse (obj ps) cc cfg o =
      if (o.mergeable && truthy (getProp cc o.name)) = true then
        if truthy (objGet ps o.name) = true then
          if o.type = "array" then
            match jsConcat (orEmptyArray (objGet ps o.name))
                (orEmptyArray (objGet cfg o.name)) with
            | .ok v => .ok (objSet cfg o.name v)
            | .error e => .error e
          else
            match recurse (objGet ps o.name) (getProp cc o.name) with
            | .ok v => .ok (objSet cfg o.name v)
            | .error e => .error e
        else .ok cfg
      else .ok cfg := rfl

theorem jsConcat_arr (xs : List JVal) (y : JVal) :
    ∃ zs, jsConcat (arr xs) y = .ok (arr zs) := by
  cases y <;> exact ⟨_, rfl⟩

theorem orEmptyArray_of_truthy {v : JVal} (h : truthy v = true) : orEmptyArray v = v := by
  simp [orEmptyArray, h]

theorem mergeLoop_returns {recurse : JVal → JVal → Except Fault JVal}
    {ps : Obj} {cc : JVal} (options : List OptionDef) (cfg : Obj)
    (hstep : ∀ o ∈ options, o.mergeable = true → truthy (getProp cc o.name) = true →
      truthy (objGet ps o.name) = true →
      (o.type = "array" → isArr (objGet ps o.name) = true) ∧
      (o.type ≠ "array" → ∃ r, recurse (objGet ps o.name) (getProp cc o.name) = .ok r)) :
    ∃ cfg1, mergeLoop recurse (obj ps) cc options cfg = .ok cfg1 := by
  induction options generalizing cfg with
  | nil => exact ⟨cfg, rfl⟩
  | cons o rest ih =>
    have hrest := fun c => ih c (fun o1 ho1 => hstep o1 (List.mem_cons_of_mem _ ho1))
    have ho := hstep o (List.mem_cons_self _ _)
    simp only [mergeLoop, mergeOption_obj]
    by_cases h1 : (o.mergeable && truthy (getProp cc o.name)) = true
    · rw [if_pos h1]
      simp only [Bool.and_eq_true] at h1
      by_cases h2 : truthy (objGet ps o.name) = true
      · rw [if_pos h2]
        have h3 := ho h1.1 h1.2 h2
        by_cases h4 : o.type = "array"
        · rw [if_pos h4]
          have h5 := h3.1 h4
          rw [orEmptyArray_of_truthy h2]
          cases hv : objGet ps o.name with
          | arr xs =>
            obtain ⟨zs, hz⟩ := jsConcat_arr xs (orEmptyArray (objGet cfg o.name))
            simp only [hz]
            exact hrest _
          | _ => simp [hv, isArr] at h5
        · rw [if_neg h4]
          obtain ⟨r, hr⟩ := h3.2 h4
          simp only [hr]
          exact hrest _
      · rw [if_neg h2]
        exact hrest _
    · rw [if_neg h1]
      exact hrest _

/-! ## Unfolding and termination of `mergeChildConfig` -/

theorem entryConforms_truthy {options : List OptionDef} {k : String} {v : JVal}
    (h : entryConforms options k v = true) (ht : truthy v = true) :
    (arrayOption options k = true → isArr v = true) ∧
    (objectOption options k = true → conforms options v = true) ∧
    (k = "force" → conforms options v = true) := by
  simp only [entryConforms, ht, Bool.not_true, Bool.false_or, Bool.and_eq_true,
    Bool.or_eq_true, Bool.not_eq_true', beq_iff_eq] at h
  refine ⟨fun ha => ?_, fun ho => ?_, fun hf => ?_⟩
  · rcases h.1 with h1 | h1
    · rw [ha] at h1
      cases h1
    · exact h1
  · rcases h.2 with h1 | h1
    · simp [ho] at h1
    · exact h1
  · rcases h.2 with h1 | h1
    · simp [hf] at h1
    · exact h1

theorem mergeChildConfig_falsy (options : List OptionDef) (fuel : Nat) (parent child : JVal)
    (h : truthy child = false) :
    mergeChildConfig options (fuel + 1) parent child = .ok parent := by
  simp [mergeChildConfig, h]

theorem mergeChildConfig_truthy (options : List OptionDef) (fuel : Nat) (parent child : JVal)
    (hp : wellFormed parent = true) (hc : truthy child = true) :
    mergeChildConfig options (fuel + 1) parent child =
      match mergeLoop (fun p c => mergeChildConfig options fuel p c) parent (cloneVal child)
          options (objectAssign (objectAssign [] (ownEntries parent))
            (ownEntries (cloneVal child))) with
      | .ok config => .ok (obj (objectAssign config (ownEntries (objGet config "force"))))
      | .error e => .error e := by
  simp only [mergeChildConfig, hc, if_true, clone_of_wellFormed parent hp,
    clone_of_truthy child hc]

theorem mergeChildConfig_returns (options : List OptionDef) :
    ∀ (fuel : Nat) (parent child : JVal), wellFormed parent = true →
      conforms options parent = true → depth parent < fuel →
      ∃ r, mergeChildConfig options fuel parent child = .ok r := by
  intro fuel
  induction fuel with
  | zero => intro parent child _ _ hd; omega
  | succ fuel ih =>
    intro parent child hw hc hd
    cases ht : truthy child with
    | false => exact ⟨parent, mergeChildConfig_falsy options fuel parent child ht⟩
    | true =>
      obtain ⟨ps, rfl⟩ := isObj_of_conforms hc
      rw [mergeChildConfig_truthy options fuel _ _ hw ht]
      have hloop := @mergeLoop_returns (fun p c => mergeChildConfig options fuel p c)
        ps (cloneVal child) options
        (objectAssign (objectAssign [] (ownEntries (obj ps))) (ownEntries (cloneVal child)))
        (by
          intro o ho hm _ htp
          have hec := entryConforms_truthy (entryConforms_objGet options ps o.name hc) htp
          refine ⟨fun hty => hec.1 (arrayOption_of_mem ho hm hty), fun hty => ?_⟩
          have hcf := hec.2.1 (objectOption_of_mem ho hm hty)
          have hdl := depth_objGet_lt ps o.name
          exact ih _ _ (wellFormed_objGet ps o.name hw htp) hcf (by omega))
      obtain ⟨cfg1, h1⟩ := hloop
      rw [h1]
      exact ⟨_, rfl⟩

theorem mergeChildConfig_obj (options : List OptionDef) (fuel : Nat) (ps cs : Obj)
    (hP : wellFormed (obj ps) = true) (hC : wellFormed (obj cs) = true)
    (hT : conforms options (obj ps) = true) (hfuel : depth (obj ps) < fuel + 1) :
    ∃ cfg1,
      mergeLoop (fun p c => mergeChildConfig options fuel p c) (obj ps) (obj cs) options
        (objectAssign ps cs) = .ok cfg1 ∧
      mergeChildConfig options (fuel + 1) (obj ps) (obj cs) =
        .ok (obj (objectAssign cfg1 (ownEntries (objGet cfg1 "force")))) := by
  obtain ⟨r, hr⟩ := mergeChildConfig_returns options (fuel + 1) (obj ps) (obj cs) hP hT hfuel
  have hu := mergeChildConfig_truthy options fuel (obj ps) (obj cs) hP rfl
  rw [cloneVal_of_wellFormed _ hC] at hu
  simp only [ownEntries] at hu
  rw [objectAssign_nil_left ps ((wellFormed_obj ps).mp hP).1] at hu
  cases hl : mergeLoop (fun p c => mergeChildConfig options fuel p c) (obj ps) (obj cs)
      options (objectAssign ps cs) with
  | error e =>
    rw [hl] at hu
    rw [hu] at hr
    cases hr
  | ok cfg1 =>
    rw [hl] at hu
    exact ⟨cfg1, rfl, hu⟩

theorem objFind_spread (ps cs : Obj) (k : String) (hC : wellFormed (obj cs) = true) :
    objFind (objectAssign ps cs) k =
      match objFind cs k with
      | some v => some v
      | none => objFind ps k :=
  objFind_objectAssign cs ps k ((wellFormed_obj cs).mp hC).1

theorem objGet_of_objFind_eq {es fs : Obj} {k j : String}
    (h : objFind es k = objFind fs j) : objGet es k = objGet fs j := by
  simp [objGet, h]

theorem objHas_false_iff (es : Obj) (k : String) :
    objHas es k = false ↔ objFind es k = none := by
  cases h : objFind es k <;> simp [objHas, h]

theorem objHas_true_iff (es : Obj) (k : String) :
    objHas es k = true ↔ ∃ v, objFind es k = some v := by
  cases h : objFind es k <;> simp [objHas, h]

theorem objGet_of_objFind_none {es : Obj} {k : String} (h : objFind es k = none) :
    objGet es k = undefined := by
  simp [objGet, h]

theorem mergeOption_mono {rec1 rec2 : JVal → JVal → Except Fault JVal}
    (hrec : ∀ p c r, rec1 p c = .ok r → rec2 p c = .ok r)
    {pc cc : JVal} {cfg cfg1 : Obj} {o : OptionDef}
    (h : mergeOption rec1 pc cc cfg o = .ok cfg1) :
    mergeOption rec2 pc cc cfg o = .ok cfg1 := by
  unfold mergeOption at h ⊢
  by_cases h1 : (o.mergeable && truthy (getProp cc o.name)) = true
  · rw [if_pos h1] at h ⊢
    by_cases h2 : truthy (getProp pc o.name) = true
    · by_cases h3 : o.type = "array"
      · cases pc <;> simp_all
      · cases hr : rec1 (getProp pc o.name) (getProp cc o.name) with
        | error e => cases pc <;> simp_all
        | ok v =>
          have hr2 := hrec _ _ _ hr
          cases pc <;> simp_all
    · cases pc <;> simp_all
  · rw [if_neg h1] at h ⊢
    exact h

theorem mergeLoop_mono {rec1 rec2 : JVal → JVal → Except Fault JVal}
    (hrec : ∀ p c r, rec1 p c = .ok r → rec2 p c = .ok r)
    {pc cc : JVal} (options : List OptionDef) (cfg cfg1 : Obj)
    (h : mergeLoop rec1 pc cc options cfg = .ok cfg1) :
    mergeLoop rec2 pc cc options cfg = .ok cfg1 := by
  induction options generalizing cfg with
  | nil => exact h
  | cons o rest ih =>
    simp only [mergeLoop] at h ⊢
    cases hstep : mergeOption rec1 pc cc cfg o with
    | error e => simp [hstep] at h
    | ok cfg0 =>
      simp only [hstep] at h
      rw [mergeOption_mono hrec hstep]
      exact ih cfg0 h

theorem mergeChildConfig_succ (options : List OptionDef) :
    ∀ (fuel : Nat) (parent child r : JVal),
      mergeChildConfig options fuel parent child = .ok r →
      mergeChildConfig options (fuel + 1) parent child = .ok r := by
  intro fuel
  induction fuel with
  | zero =>
    intro parent child r h
    simp [mergeChildConfig] at h
  | succ n ih =>
    intro parent child r h
    unfold mergeChildConfig at h ⊢
    cases ht : truthy child with
    | false => simpa [ht] using h
    | true =>
      simp only [ht, if_true] at h ⊢
      cases hp : clone parent with
      | error e => simp [hp] at h
      | ok pc =>
        cases hc : clone child with
        | error e => simp [hp, hc] at h
        | ok cc =>
          simp only [hp, hc] at h ⊢
          cases hl : mergeLoop (fun p c => mergeChildConfig options n p c) pc cc options
              (objectAssign (objectAssign [] (ownEntries pc)) (ownEntries cc)) with
          | error e => simp [hl] at h
          | ok cfg1 =>
            simp only [hl] at h
            rw [@mergeLoop_mono _ (fun p c => mergeChildConfig options (n + 1) p c)
              (fun p c r hr => ih p c r hr) _ _ options _ _ hl]
            exact h

theorem mergeChildConfig_mono (options : List OptionDef) (fuel1 fuel2 : Nat)
    (parent child r : JVal) (hle : fuel1 ≤ fuel2)
    (h : mergeChildConfig options fuel1 parent child = .ok r) :
    mergeChildConfig options fuel2 parent child = .ok r := by
  induction hle with
  | refl => exact h
  | step _ ih => exact mergeChildConfig_succ options _ _ _ _ ih

theorem mergeLoop_at {recurse : JVal → JVal → Except Fault JVal} {pc cc : JVal}
    (options : List OptionDef) (o : OptionDef) (cfg cfg2 : Obj)
    (hnd : (options.map OptionDef.name).Nodup) (ho : o ∈ options)
    (h : mergeLoop recurse pc cc options cfg = .ok cfg2) :
    ∃ cfg0 cfg1, objFind cfg0 o.name = objFind cfg o.name ∧
      mergeOption recurse pc cc cfg0 o = .ok cfg1 ∧
      objFind cfg2 o.name = objFind cfg1 o.name := by
  induction options generalizing cfg with
  | nil => simp at ho
  | cons o1 rest ih =>
    simp only [mergeLoop] at h
    simp only [List.map_cons, List.nodup_cons] at hnd
    cases hstep : mergeOption recurse pc cc cfg o1 with
    | error e => simp [hstep] at h
    | ok c1 =>
      simp only [hstep] at h
      rcases List.mem_cons.mp ho with heq | hmem
      · subst heq
        refine ⟨cfg, c1, rfl, hstep, ?_⟩
        apply mergeLoop_objFind_other rest _ _ h
        intro o2 ho2 hn
        exact absurd (List.mem_map.mpr ⟨o2, ho2, hn⟩) hnd.1
      · have hne : o1.name ≠ o.name := by
          intro hn
          exact hnd.1 (List.mem_map.mpr ⟨o, hmem, hn.symm⟩)
        obtain ⟨cfg0, cfg1, h0, h1, h2⟩ := ih c1 hnd.2 hmem h
        exact ⟨cfg0, cfg1, by rw [h0, mergeOption_objFind_other hstep hne], h1, h2⟩

theorem objFind_of_objGet {es : Obj} {k : String} {v : JVal}
    (h : objGet es k = v) (hv : v ≠ undefined) : objFind es k = some v := by
  unfold objGet at h
  cases hf : objFind es k with
  | none =>
    rw [hf] at h
    exact absurd h.symm hv
  | some w =>
    rw [hf] at h
    simp only at h
    rw [h]

theorem objGet_spread (ps cs : Obj) (k : String) (hC : wellFormed (obj cs) = true) :
    objGet (objectAssign ps cs) k = if objHas cs k = true then objGet cs k else objGet ps k := by
  unfold objGet objHas
  rw [objFind_spread ps cs k hC]
  cases objFind cs k <;> simp

theorem objGet_objectAssign_absent (target : Obj) (force : JVal) (k : String)
    (h : hasOwn force k = false) :
    objGet (objectAssign target (ownEntries force)) k = objGet target k :=
  objGet_of_objFind_eq
    (objFind_objectAssign_absent _ target k ((objHas_false_iff _ _).mp h))

theorem mergeLoop_force_reserved {recurse : JVal → JVal → Except Fault JVal}
    {pc cc : JVal} (options : List OptionDef) (cfg cfg1 : Obj)
    (hres : ∀ o ∈ options, o.mergeable = true → o.name ≠ "force")
    (h : mergeLoop recurse pc cc options cfg = .ok cfg1) :
    objGet cfg1 "force" = objGet cfg "force" := by
  apply objGet_of_objFind_eq
  apply mergeLoop_objFind_other options _ _ h
  intro o ho hn hcond
  exact hres o ho hcond.1 hn

theorem mergeChildConfig_array (options : List OptionDef) (fuel : Nat)
    (ps cs : Obj) (a : OptionDef) (xs ys : List JVal)
    (hP : wellFormed (obj ps) = true) (hC : wellFormed (obj cs) = true)
    (hT : conforms options (obj ps) = true) (hfuel : depth (obj ps) < fuel)
    (hnd : (options.map OptionDef.name).Nodup)
    (hres : ∀ o ∈ options, o.mergeable = true → o.name ≠ "force")
    (ha : a ∈ options) (hm : a.mergeable = true) (hty : a.type = "array")
    (hpa : objGet ps a.name = arr xs) (hca : objGet cs a.name = arr ys)
    (hPf : hasOwn (objGet ps "force") a.name = false)
    (hCf : hasOwn (objGet cs "force") a.name = false) :
    ∃ r, mergeChildConfig options fuel (obj ps) (obj cs) = .ok (obj r) ∧
      objGet r a.name = arr (xs ++ ys) := by
  obtain ⟨n, rfl⟩ : ∃ n, fuel = n + 1 := ⟨fuel - 1, by omega⟩
  obtain ⟨cfg1, hloop, hres1⟩ := mergeChildConfig_obj options n ps cs hP hC hT hfuel
  obtain ⟨cfg0, c1, h0, hstep, h2⟩ := mergeLoop_at options a _ _ hnd ha hloop
  have hcs : objFind cs a.name = some (arr ys) := objFind_of_objGet hca (by simp)
  have hcfg0 : objGet cfg0 a.name = arr ys := by
    rw [objGet, h0, objFind_spread ps cs _ hC, hcs]
  rw [mergeOption_obj] at hstep
  simp only [hm, getProp_obj, hca, hpa, truthy, Bool.and_self, if_true, hty, hcfg0,
    orEmptyArray, jsConcat, Except.ok.injEq] at hstep
  have hc1 : objGet cfg1 a.name = arr (xs ++ ys) := by
    rw [objGet, h2, ← hstep, objFind_objSet_same]
  refine ⟨_, hres1, ?_⟩
  rw [objGet_objectAssign_absent, hc1]
  rw [mergeLoop_force_reserved options _ _ hres hloop, objGet_spread ps cs _ hC]
  split
  · exact hCf
  · exact hPf

theorem mergeChildConfig_at_object (options : List OptionDef) (fuel : Nat)
    (ps cs : Obj) (o : OptionDef) (po co : Obj)
    (hP : wellFormed (obj ps) = true) (hC : wellFormed (obj cs) = true)
    (hT : conforms options (obj ps) = true) (hfuel : depth (obj ps) < fuel)
    (hnd : (options.map OptionDef.name).Nodup)
    (hres : ∀ o1 ∈ options, o1.mergeable = true → o1.name ≠ "force")
    (ho : o ∈ options) (hm : o.mergeable = true) (hty : o.type ≠ "array")
    (hpo : objGet ps o.name = obj po) (hco : objGet cs o.name = obj co)
    (hPf : hasOwn (objGet ps "force") o.name = false)
    (hCf : hasOwn (objGet cs "force") o.name = false) :
    ∃ r s, mergeChildConfig options fuel (obj ps) (obj cs) = .ok (obj r) ∧
      mergeChildConfig options fuel (obj po) (obj co) = .ok s ∧
      objGet r o.name = s := by
  obtain ⟨n, rfl⟩ : ∃ n, fuel = n + 1 := ⟨fuel - 1, by omega⟩
  obtain ⟨cfg1, hloop, hres1⟩ := mergeChildConfig_obj options n ps cs hP hC hT hfuel
  obtain ⟨cfg0, c1, _, hstep, h2⟩ := mergeLoop_at options o _ _ hnd ho hloop
  rw [mergeOption_obj] at hstep
  simp only [hm, getProp_obj, hco, hpo, truthy, Bool.and_self, if_true, hty,
    if_false] at hstep
  cases hs : mergeChildConfig options n (obj po) (obj co) with
  | error e => simp [hs] at hstep
  | ok s =>
    simp only [hs, Except.ok.injEq] at hstep
    have hc1 : objGet cfg1 o.name = s := by
      rw [objGet, h2, ← hstep, objFind_objSet_same]
    refine ⟨_, s, hres1, mergeChildConfig_succ options n _ _ _ hs, ?_⟩
    rw [objGet_objectAssign_absent, hc1]
    rw [mergeLoop_force_reserved options _ _ hres hloop, objGet_spread ps cs _ hC]
    split
    · exact hCf
    · exact hPf

theorem mergeLoop_skip {recurse : JVal → JVal → Except Fault JVal} {pc cc : JVal}
    (options : List OptionDef) (cfg : Obj)
    (h : ∀ o ∈ options, truthy (getProp cc o.name) = false) :
    mergeLoop recurse pc cc options cfg = .ok cfg := by
  induction options with
  | nil => rfl
  | cons o rest ih =>
    have h1 := h o (List.mem_cons_self _ _)
    simp only [mergeLoop, mergeOption, h1, Bool.and_false, Bool.false_eq_true, if_false]
    exact ih (fun o1 ho1 => h o1 (List.mem_cons_of_mem _ ho1))

theorem mergeChildConfig_empty_child (options : List OptionDef) (fuel : Nat) (ps : Obj)
    (hP : wellFormed (obj ps) = true) :
    mergeChildConfig options (fuel + 1) (obj ps) (obj []) =
      .ok (obj (objectAssign ps (ownEntries (objGet ps "force")))) := by
  rw [mergeChildConfig_truthy options fuel (obj ps) (obj []) hP rfl]
  have hl : mergeLoop (fun p c => mergeChildConfig options fuel p c) (obj ps)
      (cloneVal (obj [])) options
      (objectAssign (objectAssign [] (ownEntries (obj ps))) (ownEntries (cloneVal (obj []))))
      = .ok (objectAssign (objectAssign [] (ownEntries (obj ps)))
          (ownEntries (cloneVal (obj [])))) := by
    apply mergeLoop_skip
    intro o _
    simp [cloneVal, cloneEntries, getProp, objGet, objFind, truthy]
  rw [hl]
  simp only [cloneVal, cloneEntries, ownEntries]
  rw [objectAssign_nil_left ps ((wellFormed_obj ps).mp hP).1]
  simp [objectAssign]

/-! ## Termination for typed parents -/

theorem typedEntries_iff (options : List OptionDef) (es : Obj) :
    typedEntries options es = true ↔ ∀ p ∈ es, entryTyped options p.1 p.2 = true := by
  induction es with
  | nil => simp [typedEntries]
  | cons p es ih =>
    obtain ⟨k1, v1⟩ := p
    simp only [typedEntries, Bool.and_eq_true, ih, List.mem_cons, forall_eq_or_imp,
      entryTyped]

theorem isObj_of_typed {options : List OptionDef} {v : JVal}
    (h : typed options v = true) : ∃ es, v = obj es := by
  cases v <;> first | exact ⟨_, rfl⟩ | simp [typed] at h

theorem entryTyped_objGet (options : List OptionDef) (es : Obj) (k : String)
    (h : typed options (obj es) = true) :
    entryTyped options k (objGet es k) = true := by
  unfold objGet
  cases hf : objFind es k with
  | none => simp [entryTyped, truthy]
  | some v =>
    simp only [typed] at h
    exact (typedEntries_iff options es).mp h _ (mem_of_objFind hf)

theorem entryTyped_truthy {options : List OptionDef} {k : String} {v : JVal}
    (h : entryTyped options k v = true) (ht : truthy v = true) :
    (arrayOption options k = true → isArr v = true) ∧
    (objectOption options k = true → typed options v = true) := by
  simp only [entryTyped, ht, Bool.not_true, Bool.false_or, Bool.and_eq_true,
    Bool.or_eq_true, Bool.not_eq_true'] at h
  refine ⟨fun ha => ?_, fun ho => ?_⟩
  · rcases h.1 with h1 | h1
    · rw [ha] at h1
      cases h1
    · exact h1
  · rcases h.2 with h1 | h1
    · rw [ho] at h1
      cases h1
    · exact h1

theorem mergeChildConfig_returns_typed (options : List OptionDef) :
    ∀ (fuel : Nat) (parent child : JVal), wellFormed parent = true →
      typed options parent = true → depth parent < fuel →
      ∃ r, mergeChildConfig options fuel parent child = .ok r := by
  intro fuel
  induction fuel with
  | zero => intro parent child _ _ hd; omega
  | succ fuel ih =>
    intro parent child hw hc hd
    cases ht : truthy child with
    | false => exact ⟨parent, mergeChildConfig_falsy options fuel parent child ht⟩
    | true =>
      obtain ⟨ps, rfl⟩ := isObj_of_typed hc
      rw [mergeChildConfig_truthy options fuel _ _ hw ht]
      have hloop := @mergeLoop_returns (fun p c => mergeChildConfig options fuel p c)
        ps (cloneVal child) options
        (objectAssign (objectAssign [] (ownEntries (obj ps))) (ownEntries (cloneVal child)))
        (by
          intro o ho hm _ htp
          have hec := entryTyped_truthy (entryTyped_objGet options ps o.name hc) htp
          refine ⟨fun hty => hec.1 (arrayOption_of_mem ho hm hty), fun hty => ?_⟩
          have hcf := hec.2 (objectOption_of_mem ho hm hty)
          have hdl := depth_objGet_lt ps o.name
          exact ih _ _ (wellFormed_objGet ps o.name hw htp) hcf (by omega))
      obtain ⟨cfg1, h1⟩ := hloop
      rw [h1]
      exact ⟨_, rfl⟩

theorem mergeChildConfig_obj_typed (options : List OptionDef) (fuel : Nat) (ps cs : Obj)
    (hP : wellFormed (obj ps) = true) (hC : wellFormed (obj cs) = true)
    (hT : typed options (obj ps) = true) (hfuel : depth (obj ps) < fuel + 1) :
    ∃ cfg1,
      mergeLoop (fun p c => mergeChildConfig options fuel p c) (obj ps) (obj cs) options
        (objectAssign ps cs) = .ok cfg1 ∧
      mergeChildConfig options (fuel + 1) (obj ps) (obj cs) =
        .ok (obj (objectAssign cfg1 (ownEntries (objGet cfg1 "force")))) := by
  obtain ⟨r, hr⟩ := mergeChildConfig_returns_typed options (fuel + 1) (obj ps) (obj cs)
    hP hT hfuel
  have hu := mergeChildConfig_truthy options fuel (obj ps) (obj cs) hP rfl
  rw [cloneVal_of_wellFormed _ hC] at hu
  simp only [ownEntries] at hu
  rw [objectAssign_nil_left ps ((wellFormed_obj ps).mp hP).1] at hu
  cases hl : mergeLoop (fun p c => mergeChildConfig options fuel p c) (obj ps) (obj cs)
      options (objectAssign ps cs) with
  | error e =>
    rw [hl] at hu
    rw [hu] at hr
    cases hr
  | ok cfg1 =>
    rw [hl] at hu
    exact ⟨cfg1, rfl, hu⟩

theorem mergeChildConfig_force_block_typed (options : List OptionDef) (fuel : Nat)
    (ps cs : Obj) (force : JVal)
    (hP : wellFormed (obj ps) = true) (hC : wellFormed (obj cs) = true)
    (hT : typed options (obj ps) = true) (hfuel : depth (obj ps) < fuel)
    (hskip : ∀ o ∈ options, o.name = "force" →
      ¬(o.mergeable = true ∧ truthy (getProp (obj cs) o.name) = true ∧
        truthy (getProp (obj ps) o.name) = true))
    (hF : objGet (objectAssign ps cs) "force" = force) :
    ∃ r, mergeChildConfig options fuel (obj ps) (obj cs) = .ok (obj r) ∧
      (∀ fs k, force = obj fs → (fs.map Prod.fst).Nodup → objHas fs k = true →
        objGet r k = objGet fs k) ∧
      (∀ j, hasOwn force j = false →
        (¬ ∃ o ∈ options, o.mergeable = true ∧ o.name = j ∧
          truthy (objGet ps j) = true ∧ truthy (objGet cs j) = true) →
        objGet r j = if objHas cs j = true then objGet cs j else objGet ps j) := by
  obtain ⟨n, rfl⟩ : ∃ n, fuel = n + 1 := ⟨fuel - 1, by omega⟩
  obtain ⟨cfg1, hloop, hres1⟩ := mergeChildConfig_obj_typed options n ps cs hP hC hT hfuel
  have hforce : objGet cfg1 "force" = force := by
    rw [← hF]
    exact objGet_of_objFind_eq (mergeLoop_objFind_other options _ _ hloop hskip)
  refine ⟨_, hres1, ?_, ?_⟩
  · intro fs k hfs hnd hk
    obtain ⟨v, hv⟩ := (objHas_true_iff _ _).mp hk
    rw [hforce, hfs]
    apply objGet_of_objFind_eq
    simp only [ownEntries]
    rw [objFind_objectAssign_present fs cfg1 k v hnd hv, hv]
  · intro j hj hmerge
    rw [hforce, objGet_objectAssign_absent _ _ _ hj, ← objGet_spread ps cs j hC]
    apply objGet_of_objFind_eq
    apply mergeLoop_objFind_other options _ _ hloop
    intro o ho hn hcond
    apply hmerge
    refine ⟨o, ho, hcond.1, hn, ?_, ?_⟩
    · simpa [hn, getProp_obj] using hcond.2.2
    · simpa [hn, getProp_obj] using hcond.2.1

theorem mergeChildConfig_force_block (options : List OptionDef) (fuel : Nat)
    (ps cs fs : Obj) (k : String)
    (hP : wellFormed (obj ps) = true) (hC : wellFormed (obj cs) = true)
    (hT : conforms options (obj ps) = true) (hfuel : depth (obj ps) < fuel)
    (hskip : ∀ o ∈ options, o.name = "force" →
      ¬(o.mergeable = true ∧ truthy (getProp (obj cs) o.name) = true ∧
        truthy (getProp (obj ps) o.name) = true))
    (hF : objGet (objectAssign ps cs) "force" = obj fs)
    (hFw : wellFormed (obj fs) = true) (hk : objHas fs k = true) :
    ∃ r, mergeChildConfig options fuel (obj ps) (obj cs) = .ok (obj r) ∧
      objGet r k = objGet fs k := by
  obtain ⟨n, rfl⟩ : ∃ n, fuel = n + 1 := ⟨fuel - 1, by omega⟩
  obtain ⟨cfg1, hloop, hres1⟩ := mergeChildConfig_obj options n ps cs hP hC hT hfuel
  have hforce : objGet cfg1 "force" = obj fs := by
    rw [← hF]
    exact objGet_of_objFind_eq (mergeLoop_objFind_other options _ _ hloop hskip)
  obtain ⟨v, hv⟩ := (objHas_true_iff _ _).mp hk
  refine ⟨_, hres1, ?_⟩
  rw [hforce]
  apply objGet_of_objFind_eq
  simp only [ownEntries]
  rw [objFind_objectAssign_present fs cfg1 k v ((wellFormed_obj fs).mp hFw).1 hv, hv]

/-! ## Merging keeps configurations well formed and conforming -/

theorem mem_objSet {es : Obj} {k : String} {v : JVal} {p : String × JVal}
    (h : p ∈ objSet es k v) : p ∈ es ∨ p = (k, v) := by
  induction es with
  | nil =>
    simp only [objSet, List.mem_singleton] at h
    exact Or.inr h
  | cons q es ih =>
    obtain ⟨k1, v1⟩ := q
    by_cases h1 : k1 = k
    · simp only [objSet, h1, if_true, List.mem_cons] at h
      rcases h with h | h
      · exact Or.inr h
      · exact Or.inl (List.mem_cons_of_mem _ h)
    · simp only [objSet, h1, if_false, List.mem_cons] at h
      rcases h with h | h
      · exact Or.inl (by simp [h])
      · rcases ih h with h2 | h2
        · exact Or.inl (List.mem_cons_of_mem _ h2)
        · exact Or.inr h2

theorem nodup_keys_objSet {es : Obj} (k : String) (v : JVal)
    (h : (es.map Prod.fst).Nodup) : ((objSet es k v).map Prod.fst).Nodup := by
  induction es with
  | nil => simp [objSet]
  | cons q es ih =>
    obtain ⟨k1, v1⟩ := q
    simp only [List.map_cons, List.nodup_cons] at h
    by_cases h1 : k1 = k
    · subst h1
      simp only [objSet, if_true, List.map_cons, List.nodup_cons]
      exact h
    · simp only [objSet, h1, if_false, List.map_cons, List.nodup_cons]
      refine ⟨?_, ih h.2⟩
      rw [← objFind_eq_none_iff, objFind_objSet_other _ _ _ _ (Ne.symm h1),
        objFind_eq_none_iff]
      exact h.1

theorem objGood_objSet {options : List OptionDef} {d : Nat} {es : Obj} {k : String}
    {v : JVal} (h : objGood options d es) (hv : entryGood options d (k, v)) :
    objGood options d (objSet es k v) := by
  refine ⟨nodup_keys_objSet k v h.1, fun p hp => ?_⟩
  rcases mem_objSet hp with h1 | h1
  · exact h.2 p h1
  · rw [h1]
    exact hv

theorem objGood_objectAssign {options : List OptionDef} {d : Nat} (source target : Obj)
    (h : objGood options d target) (hs : ∀ p ∈ source, entryGood options d p) :
    objGood options d (objectAssign target source) := by
  induction source generalizing target with
  | nil => exact h
  | cons q source ih =>
    simp only [objectAssign, List.foldl_cons]
    exact ih (objSet target q.1 q.2)
      (objGood_objSet h (hs q (List.mem_cons_self _ _)))
      (fun p hp => hs p (List.mem_cons_of_mem _ hp))

theorem entryGood_objGet {options : List OptionDef} {d : Nat} {es : Obj}
    (h : objGood options d es) (k : String) (ht : truthy (objGet es k) = true) :
    wellFormed (objGet es k) = true ∧ entryConforms options k (objGet es k) = true ∧
      depth (objGet es k) ≤ d := by
  unfold objGet at ht ⊢
  cases hf : objFind es k with
  | none => simp [hf, truthy] at ht
  | some v => exact h.2 (k, v) (mem_of_objFind hf)

theorem ownEntries_obj (es : Obj) : ownEntries (obj es) = es := rfl

theorem wellFormedList_append (xs ys : List JVal) :
    wellFormedList (xs ++ ys) = (wellFormedList xs && wellFormedList ys) := by
  induction xs with
  | nil => simp [wellFormedList]
  | cons x xs ih => simp [wellFormedList, ih, Bool.and_assoc]

theorem depthList_append (xs ys : List JVal) :
    depthList (xs ++ ys) = max (depthList xs) (depthList ys) := by
  induction xs with
  | nil => simp [depthList]
  | cons x xs ih => simp [depthList, ih, max_assoc]

theorem entryConforms_intro {options : List OptionDef} {k : String} {v : JVal}
    (ha : arrayOption options k = true → isArr v = true)
    (ho : objectOption options k = true → conforms options v = true)
    (hf : k = "force" → conforms options v = true) :
    entryConforms options k v = true := by
  simp only [entryConforms, Bool.or_eq_true, Bool.and_eq_true, Bool.not_eq_true',
    beq_iff_eq]
  right
  constructor
  · cases h : arrayOption options k with
    | false => exact Or.inl rfl
    | true => exact Or.inr (ha h)
  · cases h : objectOption options k with
    | false =>
      by_cases h2 : k = "force"
      · exact Or.inr (hf h2)
      · left
        simp [h2]
    | true => exact Or.inr (ho h)

theorem truthy_of_conforms {options : List OptionDef} {v : JVal}
    (h : conforms options v = true) : truthy v = true := by
  obtain ⟨es, rfl⟩ := isObj_of_conforms h
  rfl

theorem not_isArr_of_conforms {options : List OptionDef} {v : JVal}
    (h : conforms options v = true) : isArr v = false := by
  obtain ⟨es, rfl⟩ := isObj_of_conforms h
  rfl

theorem ownEntries_of_falsy {v : JVal} (h : truthy v = false) : ownEntries v = [] := by
  cases v with
  | str s =>
    have : s = "" := by simpa [truthy] using h
    subst this
    rfl
  | arr xs => simp [truthy] at h
  | obj es => simp [truthy] at h
  | _ => rfl

theorem objGood_of_obj {options : List OptionDef} {es : Obj}
    (hw : wellFormed (obj es) = true) (hc : conforms options (obj es) = true) :
    objGood options (depthEntries es) es := by
  refine ⟨((wellFormed_obj es).mp hw).1, fun p hp => ⟨?_, ?_, ?_⟩⟩
  · exact ((wellFormed_obj es).mp hw).2 p hp
  · exact (conforms_obj options es).mp hc p hp
  · exact depthEntries_ge es p hp

theorem objGood_mono {options : List OptionDef} {d1 d2 : Nat} {es : Obj}
    (h : objGood options d1 es) (hle : d1 ≤ d2) : objGood options d2 es :=
  ⟨h.1, fun p hp => ⟨(h.2 p hp).1, (h.2 p hp).2.1, le_trans (h.2 p hp).2.2 hle⟩⟩

theorem depthEntries_le_of_forall {es : Obj} {d : Nat}
    (h : ∀ p ∈ es, depth p.2 ≤ d) : depthEntries es ≤ d := by
  induction es with
  | nil => simp [depthEntries]
  | cons q es ih =>
    obtain ⟨k1, v1⟩ := q
    simp only [depthEntries, max_le_iff]
    exact ⟨h (k1, v1) (List.mem_cons_self _ _),
      ih (fun p hp => h p (List.mem_cons_of_mem _ hp))⟩

theorem obj_of_objGood {options : List OptionDef} {d : Nat} {es : Obj}
    (h : objGood options d es) :
    wellFormed (obj es) = true ∧ conforms options (obj es) = true ∧
      depth (obj es) ≤ d + 1 := by
  refine ⟨(wellFormed_obj es).mpr ⟨h.1, fun p hp => (h.2 p hp).1⟩,
    (conforms_obj options es).mpr (fun p hp => (h.2 p hp).2.1), ?_⟩
  simp only [depth]
  have := @depthEntries_le_of_forall es d (fun p hp => (h.2 p hp).2.2)
  omega

theorem mergeOption_good {options : List OptionDef}
    {recurse : JVal → JVal → Except Fault JVal} {ps cs : Obj} {d : Nat}
    (hPw : wellFormed (obj ps) = true) (hPc : conforms options (obj ps) = true)
    (hCw : wellFormed (obj cs) = true) (hCc : conforms options (obj cs) = true)
    (hPd : depthEntries ps ≤ d) (hCd : depthEntries cs ≤ d)
    (hrec : ∀ p c s, wellFormed p = true → wellFormed c = true →
      conforms options p = true → conforms options c = true → recurse p c = .ok s →
      wellFormed s = true ∧ conforms options s = true ∧ depth s ≤ max (depth p) (depth c))
    {o : OptionDef} (ho : o ∈ options) {cfg cfg1 : Obj} (hg : objGood options d cfg)
    (h : mergeOption recurse (obj ps) (obj cs) cfg o = .ok cfg1) :
    objGood options d cfg1 := by
  rw [mergeOption_obj] at h
  by_cases h1 : (o.mergeable && truthy (getProp (obj cs) o.name)) = true
  · rw [if_pos h1] at h
    simp only [Bool.and_eq_true, getProp_obj] at h1
    by_cases h2 : truthy (objGet ps o.name) = true
    · rw [if_pos h2] at h
      have hec := entryConforms_truthy (entryConforms_objGet options ps o.name hPc) h2
      have hpw := wellFormed_objGet ps o.name hPw h2
      have hpd := depth_objGet_lt ps o.name
      simp only [depth] at hpd
      by_cases h3 : o.type = "array"
      · rw [if_pos h3] at h
        have harr := hec.1 (arrayOption_of_mem ho h1.1 h3)
        cases hv : objGet ps o.name with
        | arr xs =>
          rw [hv] at hec hpw hpd
          have hno : objectOption options o.name = false := by
            cases hoo : objectOption options o.name with
            | false => rfl
            | true => simpa [conforms] using hec.2.1 hoo
          have hnf : o.name ≠ "force" := by
            intro hf
            simpa [conforms] using hec.2.2 hf
          have hys : ∃ ys, orEmptyArray (objGet cfg o.name) = arr ys ∧
              wellFormedList ys = true ∧ depthList ys + 1 ≤ d := by
            by_cases ht : truthy (objGet cfg o.name) = true
            · have hgood := entryGood_objGet hg o.name ht
              have hia := (entryConforms_truthy hgood.2.1 ht).1
                (arrayOption_of_mem ho h1.1 h3)
              cases hw : objGet cfg o.name with
              | arr ys =>
                rw [hw] at hgood
                refine ⟨ys, ?_, ?_, ?_⟩
                · simp [orEmptyArray, truthy]
                · simpa [wellFormed] using hgood.1
                · simpa [depth] using hgood.2.2
              | _ => simp [hw, isArr] at hia
            · refine ⟨[], ?_, rfl, ?_⟩
              · simp [orEmptyArray, ht]
              · simp only [depthList, depth] at hpd ⊢
                omega
          obtain ⟨ys, hy1, hy2, hy3⟩ := hys
          simp only [hv, @orEmptyArray_of_truthy (arr xs) rfl, hy1, jsConcat,
            Except.ok.injEq] at h
          rw [← h]
          apply objGood_objSet hg
          refine ⟨?_, ?_, ?_⟩
          · simp only [wellFormed] at hpw ⊢
            rw [wellFormedList_append, hpw, hy2]
            rfl
          · apply entryConforms_intro
            · intro _
              rfl
            · intro hoo
              rw [hno] at hoo
              cases hoo
            · intro hf
              exact absurd hf hnf
          · simp only [depth, depthList_append] at hpd ⊢
            omega
        | _ => simp [hv, isArr] at harr
      · rw [if_neg h3] at h
        have hpc := hec.2.1 (objectOption_of_mem ho h1.1 h3)
        have hcec := entryConforms_truthy (entryConforms_objGet options cs o.name hCc) h1.2
        have hcc := hcec.2.1 (objectOption_of_mem ho h1.1 h3)
        have hcw := wellFormed_objGet cs o.name hCw h1.2
        have hcd := depth_objGet_lt cs o.name
        simp only [depth] at hcd
        have hna : arrayOption options o.name = false := by
          cases hao : arrayOption options o.name with
          | false => rfl
          | true =>
            have := hec.1 hao
            rw [not_isArr_of_conforms hpc] at this
            cases this
        cases hr : recurse (objGet ps o.name) (objGet cs o.name) with
        | error e => simp [getProp_obj, hr] at h
        | ok s =>
          simp only [getProp_obj, hr, Except.ok.injEq] at h
          obtain ⟨hs1, hs2, hs3⟩ := hrec _ _ _ hpw hcw hpc hcc hr
          rw [← h]
          apply objGood_objSet hg
          refine ⟨hs1, ?_, ?_⟩
          · apply entryConforms_intro
            · intro hao
              rw [hna] at hao
              cases hao
            · intro _
              exact hs2
            · intro _
              exact hs2
          · simp only at hs3 ⊢
            have : max (depth (objGet ps o.name)) (depth (objGet cs o.name)) ≤ d := by
              rw [max_le_iff]
              constructor <;> omega
            omega
    · rw [if_neg h2] at h
      cases h
      exact hg
  · rw [if_neg h1] at h
    cases h
    exact hg

theorem mergeLoop_good {options : List OptionDef}
    {recurse : JVal → JVal → Except Fault JVal} {ps cs : Obj} {d : Nat}
    (hPw : wellFormed (obj ps) = true) (hPc : conforms options (obj ps) = true)
    (hCw : wellFormed (obj cs) = true) (hCc : conforms options (obj cs) = true)
    (hPd : depthEntries ps ≤ d) (hCd : depthEntries cs ≤ d)
    (hrec : ∀ p c s, wellFormed p = true → wellFormed c = true →
      conforms options p = true → conforms options c = true → recurse p c = .ok s →
      wellFormed s = true ∧ conforms options s = true ∧ depth s ≤ max (depth p) (depth c))
    (opts : List OptionDef) (hsub : ∀ o ∈ opts, o ∈ options) (cfg cfg1 : Obj)
    (hg : objGood options d cfg)
    (h : mergeLoop recurse (obj ps) (obj cs) opts cfg = .ok cfg1) :
    objGood options d cfg1 := by
  induction opts generalizing cfg with
  | nil =>
    simp only [mergeLoop] at h
    cases h
    exact hg
  | cons o rest ih =>
    simp only [mergeLoop] at h
    cases hstep : mergeOption recurse (obj ps) (obj cs) cfg o with
    | error e => simp [hstep] at h
    | ok cfg0 =>
      simp only [hstep] at h
      exact ih (fun o1 ho1 => hsub o1 (List.mem_cons_of_mem _ ho1)) cfg0
        (mergeOption_good hPw hPc hCw hCc hPd hCd hrec
          (hsub o (List.mem_cons_self _ _)) hg hstep) h

theorem mergeChildConfig_good (options : List OptionDef) :
    ∀ (fuel : Nat) (p c s : JVal), wellFormed p = true → wellFormed c = true →
      conforms options p = true → conforms options c = true →
      mergeChildConfig options fuel p c = .ok s →
      wellFormed s = true ∧ conforms options s = true ∧
        depth s ≤ max (depth p) (depth c) := by
  intro fuel
  induction fuel with
  | zero =>
    intro p c s _ _ _ _ h
    simp [mergeChildConfig] at h
  | succ n ih =>
    intro p c s hPw hCw hPc hCc h
    obtain ⟨ps, rfl⟩ := isObj_of_conforms hPc
    obtain ⟨cs, rfl⟩ := isObj_of_conforms hCc
    rw [mergeChildConfig_truthy options n (obj ps) (obj cs) hPw rfl,
      cloneVal_of_wellFormed _ hCw] at h
    simp only [ownEntries_obj] at h
    rw [objectAssign_nil_left ps ((wellFormed_obj ps).mp hPw).1] at h
    cases hl : mergeLoop (fun p c => mergeChildConfig options n p c) (obj ps) (obj cs)
        options (objectAssign ps cs) with
    | error e => simp [hl] at h
    | ok cfg1 =>
      simp only [hl, Except.ok.injEq] at h
      have hgp : objGood options (max (depthEntries ps) (depthEntries cs)) ps :=
        objGood_mono (objGood_of_obj hPw hPc) (le_max_left _ _)
      have hgc : objGood options (max (depthEntries ps) (depthEntries cs)) cs :=
        objGood_mono (objGood_of_obj hCw hCc) (le_max_right _ _)
      have hg0 := objGood_objectAssign cs ps hgp hgc.2
      have hg1 := mergeLoop_good hPw hPc hCw hCc (le_max_left _ _) (le_max_right _ _)
        (fun p c s h1 h2 h3 h4 h5 => ih p c s h1 h2 h3 h4 h5) options (fun _ ho => ho)
        _ _ hg0 hl
      have hforce : ∀ q ∈ ownEntries (objGet cfg1 "force"),
          entryGood options (max (depthEntries ps) (depthEntries cs)) q := by
        by_cases ht : truthy (objGet cfg1 "force") = true
        · have hgf := entryGood_objGet hg1 "force" ht
          have hcf := (entryConforms_truthy hgf.2.1 ht).2.2 rfl
          obtain ⟨fs, hfs⟩ := isObj_of_conforms hcf
          rw [hfs] at hgf hcf ⊢
          intro q hq
          have hgq := (objGood_of_obj hgf.1 hcf).2 q hq
          refine ⟨hgq.1, hgq.2.1, ?_⟩
          have h1 := hgq.2.2
          have h2 := hgf.2.2
          simp only [depth] at h2
          omega
        · rw [ownEntries_of_falsy (by simpa using ht)]
          intro q hq
          simp at hq
      have hg2 := objGood_objectAssign _ _ hg1 hforce
      obtain ⟨hw, hc, hd⟩ := obj_of_objGood hg2
      rw [← h]
      refine ⟨hw, hc, ?_⟩
      simp only [depth] at hd ⊢
      omega

/-! ## Deriving a manager configuration -/

theorem mergeChildConfig_isObj (options : List OptionDef) (fuel : Nat) (ps : Obj)
    (child r : JVal) (h : mergeChildConfig options fuel (obj ps) child = .ok r) :
    ∃ es, r = obj es := by
  cases fuel with
  | zero => simp [mergeChildConfig] at h
  | succ n =>
    unfold mergeChildConfig at h
    cases ht : truthy child with
    | false =>
      simp only [ht, Bool.false_eq_true, if_false, Except.ok.injEq] at h
      exact ⟨ps, h.symm⟩
    | true =>
      simp only [ht, if_true] at h
      cases hp : clone (obj ps) with
      | error e => simp [hp] at h
      | ok pc =>
        cases hc : clone child with
        | error e => simp [hp, hc] at h
        | ok cc =>
          simp only [hp, hc] at h
          cases hl : mergeLoop (fun p c => mergeChildConfig options n p c) pc cc options
              (objectAssign (objectAssign [] (ownEntries pc)) (ownEntries cc)) with
          | error e => simp [hl] at h
          | ok cfg1 =>
            simp only [hl, Except.ok.injEq] at h
            exact ⟨_, h.symm⟩

theorem foldl_deleteProp_obj (keys : List String) (es : Obj) :
    keys.foldl deleteProp (obj es) = obj (keys.foldl objDelete es) := by
  induction keys generalizing es with
  | nil => rfl
  | cons k keys ih => simp only [List.foldl_cons, deleteProp, ih]

theorem objFind_foldl_objDelete (keys : List String) (es : Obj) (k : String) :
    objFind (keys.foldl objDelete es) k = if k ∈ keys then none else objFind es k := by
  induction keys generalizing es with
  | nil => simp
  | cons j keys ih =>
    simp only [List.foldl_cons, ih, objFind_objDelete, List.mem_cons]
    by_cases h1 : k ∈ keys
    · simp [h1]
    · by_cases h2 : j = k
      · simp [h2]
      · simp [h1, h2, Ne.symm h2]

theorem getManagerConfig_language_step (options : List OptionDef)
    (language : Option String) (fuel : Nat) (config : Obj)
    (hW : wellFormed (obj config) = true) (hT : conforms options (obj config) = true)
    (hfuel : depth (obj config) < fuel)
    (hL : ∀ l, language = some l → truthy (objGet config l) = true →
      conforms options (objGet config l) = true) :
    ∃ es1, (if truthy (languageValue language) = true then
          mergeChildConfig options fuel (obj config)
            (match language with
             | some l => objGet config l
             | none => undefined)
        else .ok (obj config)) = .ok (obj es1) ∧
      wellFormed (obj es1) = true ∧ conforms options (obj es1) = true ∧
      depth (obj es1) ≤ depth (obj config) := by
  by_cases ht : truthy (languageValue language) = true
  · rw [if_pos ht]
    cases language with
    | none => simp [languageValue, truthy] at ht
    | some l =>
      simp only
      obtain ⟨r, hr⟩ := mergeChildConfig_returns options fuel (obj config)
        (objGet config l) hW hT hfuel
      obtain ⟨es1, rfl⟩ := mergeChildConfig_isObj options fuel config _ r hr
      refine ⟨es1, hr, ?_⟩
      by_cases hb : truthy (objGet config l) = true
      · have hbw := wellFormed_objGet config l hW hb
        have hbc := hL l rfl hb
        obtain ⟨h1, h2, h3⟩ := mergeChildConfig_good options fuel _ _ _ hW hbw hT hbc hr
        refine ⟨h1, h2, ?_⟩
        have := depth_objGet_lt config l
        rw [max_eq_left (by omega)] at h3
        exact h3
      · obtain ⟨n, rfl⟩ : ∃ n, fuel = n + 1 := ⟨fuel - 1, by omega⟩
        rw [mergeChildConfig_falsy options n _ _ (by simpa using hb)] at hr
        cases hr
        exact ⟨hW, hT, le_refl _⟩
  · rw [if_neg ht]
    exact ⟨config, rfl, hW, hT, le_refl _⟩

theorem getManagerConfig_returns (options : List OptionDef)
    (getLanguage : String → Option String) (languageList managerList : List String)
    (fuel : Nat) (config : Obj) (manager : String)
    (hW : wellFormed (obj config) = true) (hT : conforms options (obj config) = true)
    (hfuel : depth (obj config) < fuel)
    (hL : ∀ l, getLanguage manager = some l → truthy (objGet config l) = true →
      conforms options (objGet config l) = true) :
    ∃ es1 es2,
      (if truthy (languageValue (getLanguage manager)) = true then
          mergeChildConfig options fuel (obj config)
            (match getLanguage manager with
             | some l => objGet config l
             | none => undefined)
        else .ok (obj config)) = .ok (obj es1) ∧
      mergeChildConfig options fuel (obj es1) (objGet config manager) = .ok (obj es2) ∧
      getManagerConfig options getLanguage languageList managerList fuel config manager =
        .ok ⟨obj (objSet (objSet ((languageList ++ managerList).foldl objDelete es2)
            "language" (languageValue (getLanguage manager))) "manager" (str manager)),
          if ((truthy (languageValue (getLanguage manager)) &&
                truthy (match getLanguage manager with
                  | some l => objGet config l
                  | none => undefined)) ||
              truthy (objGet config manager)) = true
          then obj config
          else obj (objSet (objSet ((languageList ++ managerList).foldl objDelete es2)
            "language" (languageValue (getLanguage manager))) "manager" (str manager))⟩ := by
  obtain ⟨es1, h1, hw1, hc1, hd1⟩ := getManagerConfig_language_step options
    (getLanguage manager) fuel config hW hT hfuel hL
  obtain ⟨r2, h2⟩ := mergeChildConfig_returns options fuel (obj es1)
    (objGet config manager) hw1 hc1 (by omega)
  obtain ⟨es2, rfl⟩ := mergeChildConfig_isObj options fuel es1 _ r2 h2
  refine ⟨es1, es2, h1, h2, ?_⟩
  unfold getManagerConfig
  simp only [h1, h2, foldl_deleteProp_obj, setProp]

theorem getManagerConfig_of_steps (options : List OptionDef)
    (getLanguage : String → Option String) (languageList managerList : List String)
    (fuel : Nat) (config : Obj) (manager : String) (es1 es2 : Obj)
    (h1 : (if truthy (languageValue (getLanguage manager)) = true then
          mergeChildConfig options fuel (obj config)
            (match getLanguage manager with
             | some l => objGet config l
             | none => undefined)
        else .ok (obj config)) = .ok (obj es1))
    (h2 : mergeChildConfig options fuel (obj es1) (objGet config manager) = .ok (obj es2)) :
    getManagerConfig options getLanguage languageList managerList fuel config manager =
      .ok ⟨obj (objSet (objSet ((languageList ++ managerList).foldl objDelete es2)
          "language" (languageValue (getLanguage manager))) "manager" (str manager)),
        if ((truthy (languageValue (getLanguage manager)) &&
              truthy (match getLanguage manager with
                | some l => objGet config l
                | none => undefined)) ||
            truthy (objGet config manager)) = true
        then obj config
        else obj (objSet (objSet ((languageList ++ managerList).foldl objDelete es2)
          "language" (languageValue (getLanguage manager))) "manager" (str manager))⟩ := by
  unfold getManagerConfig
  simp only [h1, h2, foldl_deleteProp_obj, setProp]

theorem mergeChildConfig_overlay (options : List OptionDef) (fuel : Nat)
    (ps cs : Obj) (k : String)
    (hP : wellFormed (obj ps) = true) (hC : wellFormed (obj cs) = true)
    (hT : conforms options (obj ps) = true) (hfuel : depth (obj ps) < fuel)
    (hPf : objFind ps "force" = none) (hCf : objFind cs "force" = none)
    (hk : ∀ o ∈ options, o.mergeable = true → o.name ≠ k) :
    ∃ r, mergeChildConfig options fuel (obj ps) (obj cs) = .ok (obj r) ∧
      objFind r "force" = none ∧
      objFind r k =
        match objFind cs k with
        | some v => some v
        | none => objFind ps k := by
  obtain ⟨n, rfl⟩ : ∃ n, fuel = n + 1 := ⟨fuel - 1, by omega⟩
  obtain ⟨cfg1, hloop, hres⟩ := mergeChildConfig_obj options n ps cs hP hC hT hfuel
  have hforce : objFind cfg1 "force" = none := by
    rw [mergeLoop_objFind_other options _ _ hloop, objFind_spread ps cs _ hC, hCf, hPf]
    intro o _ hn hcond
    rw [hn, getProp_obj, objGet_of_objFind_none hCf] at hcond
    simp [truthy] at hcond
  have hkeep : objFind cfg1 k = objFind (objectAssign ps cs) k := by
    apply mergeLoop_objFind_other options _ _ hloop
    intro o ho hn hcond
    exact hk o ho hcond.1 hn
  refine ⟨_, hres, ?_, ?_⟩
  · simpa only [objGet_of_objFind_none hforce, ownEntries, objectAssign, List.foldl_nil]
      using hforce
  · simp only [objGet_of_objFind_none hforce, ownEntries, objectAssign, List.foldl_nil]
    rw [hkeep, objFind_spread ps cs k hC]

theorem mergeChildConfig_block (options : List OptionDef) (fuel : Nat)
    (ps : Obj) (block : JVal) (k : String)
    (hP : wellFormed (obj ps) = true) (hT : conforms options (obj ps) = true)
    (hfuel : depth (obj ps) < fuel)
    (hB : truthy block = true → wellFormed block = true ∧ isObj block = true)
    (hPf : objFind ps "force" = none) (hBf : hasOwn block "force" = false)
    (hk : ∀ o ∈ options, o.mergeable = true → o.name ≠ k) :
    ∃ r, mergeChildConfig options fuel (obj ps) block = .ok (obj r) ∧
      objFind r "force" = none ∧
      objGet r k = if hasOwn block k = true then getProp block k else objGet ps k := by
  by_cases ht : truthy block = true
  · obtain ⟨hbw, hbo⟩ := hB ht
    cases block with
    | obj cs =>
      have hCf : objFind cs "force" = none := (objHas_false_iff _ _).mp hBf
      obtain ⟨r, h1, h2, h3⟩ := mergeChildConfig_overlay options fuel ps cs k hP hbw hT hfuel
        hPf hCf hk
      refine ⟨r, h1, h2, ?_⟩
      simp only [hasOwn, ownEntries_obj, objHas, getProp_obj, objGet, h3]
      cases objFind cs k <;> simp
    | _ => simp [isObj] at hbo
  · obtain ⟨n, rfl⟩ : ∃ n, fuel = n + 1 := ⟨fuel - 1, by omega⟩
    have hf : truthy block = false := by simpa using ht
    refine ⟨ps, mergeChildConfig_falsy options n _ _ hf, hPf, ?_⟩
    simp [hasOwn, ownEntries_of_falsy hf, objHas, objFind]

/-! ## The stage filter -/

theorem indexOf_stages (s : String) :
    indexOf stages s =
      match stageRank s with
      | some i => (i : Int)
      | none => -1 := by
  by_cases h0 : s = "global"
  · subst h0; decide
  by_cases h1 : s = "repository"
  · subst h1; decide
  by_cases h2 : s = "package"
  · subst h2; decide
  by_cases h3 : s = "branch"
  · subst h3; decide
  by_cases h4 : s = "pr"
  · subst h4; decide
  have : stageRank s = none := by
    unfold stageRank
    split <;> simp_all
  rw [this]
  simp [indexOf, stages, h0, h1, h2, h3, h4]

theorem filter_condition_iff (o : OptionDef) (t : String) :
    (stageIndex o.stage != -1 && decide (stageIndex o.stage < indexOf stages t)) = true ↔
      ∃ s, o.stage = some s ∧ stagePrecedes s t = true := by
  cases hs : o.stage with
  | none => simp [stageIndex]
  | some s =>
    simp only [stageIndex, indexOf_stages, stagePrecedes, Option.some.injEq, exists_eq_left']
    cases hrs : stageRank s with
    | none => cases stageRank t <;> simp
    | some i =>
      cases hrt : stageRank t with
      | none =>
        simp only [Bool.and_eq_true, decide_eq_true_eq, Bool.false_eq_true, iff_false,
          not_and, not_lt]
        intro _
        exact le_trans (by decide) (Int.natCast_nonneg i)
      | some j =>
        simp only [Bool.and_eq_true, decide_eq_true_eq, Nat.cast_lt, bne_iff_ne, ne_eq,
          and_iff_right_iff_imp]
        intro _ h
        have := Int.natCast_nonneg i
        rw [h] at this
        exact absurd this (by decide)

theorem objFind_filter_fold (options : List OptionDef) (ti : Int) (cfg : Obj) (k : String) :
    objFind (options.foldl (filterOption ti) cfg) k =
      if (∃ o ∈ options, o.name = k ∧
          (stageIndex o.stage != -1 && decide (stageIndex o.stage < ti)) = true)
      then none else objFind cfg k := by
  induction options generalizing cfg with
  | nil => simp
  | cons o rest ih =>
    simp only [List.foldl_cons, ih, List.mem_cons, exists_eq_or_imp]
    by_cases hc : (stageIndex o.stage != -1 && decide (stageIndex o.stage < ti)) = true
    · by_cases hn : o.name = k
      · simp [filterOption, hc, hn, objFind_objDelete]
      · simp [filterOption, hc, hn, objFind_objDelete]
    · simp [filterOption, hc]

theorem objFind_filterConfig (options : List OptionDef) (es : Obj) (t k : String)
    (hnd : (es.map Prod.fst).Nodup) :
    objFind (options.foldl (filterOption (indexOf stages t))
        (objectAssign [] (ownEntries (obj es)))) k =
      if (∃ o ∈ options, o.name = k ∧ ∃ s, o.stage = some s ∧ stagePrecedes s t = true)
      then none else objFind es k := by
  rw [objFind_filter_fold]
  simp only [ownEntries, objectAssign_nil_left es hnd, filter_condition_iff]

theorem indexOf_stages_position (s : String) : indexOf stages s = stagePosition s := by
  rw [indexOf_stages]
  rfl

theorem foldl_filterOption (options : List OptionDef) (ti : Int) (cfg : Obj) :
    options.foldl (filterOption ti) cfg =
      cfg.filter fun p => !stageRemoves options ti p.1 := by
  induction options generalizing cfg with
  | nil => simp [stageRemoves]
  | cons o rest ih =>
    simp only [List.foldl_cons, ih]
    by_cases hc : (stageIndex o.stage != -1 && decide (stageIndex o.stage < ti)) = true
    · simp only [filterOption, hc, if_true, objDelete, List.filter_filter]
      apply List.filter_congr
      intro p _
      by_cases hn : o.name = p.1
      · simp [stageRemoves, hn, hc]
      · have hn2 : ¬ p.1 = o.name := fun h => hn h.symm
        have e1 : (p.1 != o.name) = true := by simp [hn2]
        have e2 : (o.name == p.1) = false := by simp [hn]
        simp only [stageRemoves, List.any_cons, e1, e2, Bool.false_and, Bool.false_or,
          Bool.and_true]
    · simp only [filterOption, hc]
      apply List.filter_congr
      intro p _
      simp [stageRemoves, hc]

theorem filterConfig_eq_filter (options : List OptionDef) (es : Obj) (t : String)
    (hnd : (es.map Prod.fst).Nodup) :
    filterConfig options (obj es) t =
      obj (es.filter fun p => !stageRemoves options (stagePosition t) p.1) := by
  simp only [filterConfig, ownEntries_obj, objectAssign_nil_left es hnd, foldl_filterOption,
    indexOf_stages_position]

theorem nodup_keys_filter (es : Obj) (f : String × JVal → Bool)
    (hnd : (es.map Prod.fst).Nodup) : ((es.filter f).map Prod.fst).Nodup :=
  List.Nodup.sublist (List.Sublist.map _ (List.filter_sublist es)) hnd

theorem stageRemoves_mono (options : List OptionDef) (a b : Int) (k : String)
    (hab : a ≤ b) (h : stageRemoves options a k = true) : stageRemoves options b k = true := by
  simp only [stageRemoves, List.any_eq_true, Bool.and_eq_true, decide_eq_true_eq] at h ⊢
  obtain ⟨o, ho, hn, hne, hlt⟩ := h
  exact ⟨o, ho, hn, hne, lt_of_lt_of_le hlt hab⟩

theorem stageRemoves_later (options : List OptionDef) (s t k : String) :
    stageRemoves options (stagePosition (laterStage s t)) k =
      (stageRemoves options (stagePosition s) k || stageRemoves options (stagePosition t) k) := by
  unfold laterStage
  by_cases h : stagePosition s ≤ stagePosition t
  · rw [if_pos h]
    cases hs : stageRemoves options (stagePosition s) k with
    | false => simp
    | true => simp [stageRemoves_mono options _ _ k h hs]
  · rw [if_neg h]
    cases ht : stageRemoves options (stagePosition t) k with
    | false => simp
    | true => simp [stageRemoves_mono options _ _ k (le_of_lt (not_le.mp h)) ht]

theorem filterConfig_twice (options : List OptionDef) (es : Obj) (s t : String)
    (hnd : (es.map Prod.fst).Nodup) :
    filterConfig options (filterConfig options (obj es) s) t =
      obj (es.filter fun p => !(stageRemoves options (stagePosition s) p.1 ||
        stageRemoves options (stagePosition t) p.1)) := by
  rw [filterConfig_eq_filter options es s hnd,
    filterConfig_eq_filter options _ t (nodup_keys_filter es _ hnd), List.filter_filter]
  congr 1
  apply List.filter_congr
  intro p _
  cases stageRemoves options (stagePosition s) p.1 <;>
    cases stageRemoves options (stagePosition t) p.1 <;> rfl

/-! ## Platform and authentication check -/

theorem base64Bytes_ne_nil (bs : List Nat) (h : bs ≠ []) : base64Bytes bs ≠ [] := by
  match bs, h with
  | [_], _ => simp [base64Bytes]
  | [_, _], _ => simp [base64Bytes]
  | _ :: _ :: _ :: _, _ => simp [base64Bytes]

theorem base64_credentials_ne_empty (u p : String) : base64 (u ++ ":" ++ p) ≠ "" := by
  intro h
  have h1 := congrArg String.data h
  simp only [base64, String.data_append, List.map_append, List.flatten_append] at h1
  refine base64Bytes_ne_nil _ ?_ h1
  have hc : (List.map binaryBytes ":".data).flatten = [58] := by decide
  rw [hc]
  simp

/-- A character outside the basic plane contributes the low bytes of its two surrogate
code units. -/
theorem base64_surrogate_pair : base64 "😀:p" = "PQA6cA==" := by decide

theorem truthy_authToken_of_credentials (config : JVal)
    (hu : truthy (getProp config "username") = true)
    (hp : truthy (getProp config "password") = true) :
    authToken config = str (base64 (toStr (getProp config "username") ++ ":" ++
      toStr (getProp config "password"))) ∧ truthy (authToken config) = true := by
  have h : authToken config = str (base64 (toStr (getProp config "username") ++ ":" ++
      toStr (getProp config "password"))) := by
    simp [authToken, hu, hp]
  refine ⟨h, ?_⟩
  rw [h]
  simp [truthy, base64_credentials_ne_empty]

theorem authToken_of_no_credentials (config : JVal)
    (h : ¬(truthy (getProp config "username") = true ∧
      truthy (getProp config "password") = true)) :
    authToken config = getProp config "token" := by
  unfold authToken
  rw [if_neg]
  simpa using h

theorem checkAuthentication_unsupported (defaults : Obj)
    (find : List JVal → JVal → JVal → JVal) (appMode : Bool) (registered : List JVal)
    (config : JVal)
    (h : truthy (objGet defaults (toStr (getProp config "platform"))) = false)
    (hi : inheritedMember defaults (toStr (getProp config "platform")) = false) :
    checkAuthentication defaults find appMode registered config =
      ⟨registered, .error (ParseError.unsupportedPlatform (getProp config "platform"))⟩ := by
  simp [checkAuthentication, h, hi]

theorem checkAuthentication_no_token (defaults : Obj)
    (find : List JVal → JVal → JVal → JVal) (appMode : Bool) (registered : List JVal)
    (config : JVal)
    (h : truthy (objGet defaults (toStr (getProp config "platform"))) = true)
    (ht : truthy (authToken config) = false) :
    checkAuthentication defaults find appMode registered config =
      ⟨registered, .error (ParseError.noAuthentication
        (authEndpoint (objGet defaults (toStr (getProp config "platform"))) config)
        (getProp config "platform"))⟩ := by
  simp [checkAuthentication, h, ht]

theorem checkAuthentication_registers (defaults : Obj)
    (find : List JVal → JVal → JVal → JVal) (appMode : Bool) (registered : List JVal)
    (config : JVal) (rules : List JVal)
    (h : truthy (objGet defaults (toStr (getProp config "platform"))) = true)
    (ht : truthy (authToken config) = true)
    (hr : getProp config "hostRules" = arr rules) :
    ∃ tail config1, checkAuthentication defaults find appMode registered config =
      ⟨registered ++ (rules ++
        [authRecord (objGet defaults (toStr (getProp config "platform"))) config]) ++ tail,
       .ok config1⟩ := by
  cases appMode with
  | true =>
    refine ⟨[], deleteProp (deleteProp (deleteProp (deleteProp config "hostRules")
      "token") "username") "password", ?_⟩
    simp [checkAuthentication, h, ht, hr]
  | false =>
    refine ⟨[obj (objSet (objectAssign [] (ownEntries
      (find (registered ++ (rules ++
          [authRecord (objGet defaults (toStr (getProp config "platform"))) config]))
        (obj [("platform", getProp config "platform")])
        (obj [("platform", getProp config "platform"),
          ("endpoint",
            if truthy (authEndpoint (objGet defaults (toStr (getProp config "platform")))
                config) = true
            then authEndpoint (objGet defaults (toStr (getProp config "platform"))) config
            else getProp (objGet defaults (toStr (getProp config "platform"))) "endpoint"),
          ("token", authToken config)])))) "default" (.bool true))],
      deleteProp (deleteProp (deleteProp (deleteProp config "hostRules")
        "token") "username") "password", ?_⟩
    simp [checkAuthentication, h, ht, hr]

theorem checkAuthentication_not_noAuth (defaults : Obj)
    (find : List JVal → JVal → JVal → JVal) (appMode : Bool) (registered : List JVal)
    (config : JVal)
    (h : truthy (objGet defaults (toStr (getProp config "platform"))) = true)
    (ht : truthy (authToken config) = true) (e p : JVal) :
    (checkAuthentication defaults find appMode registered config).outcome ≠
      .error (ParseError.noAuthentication e p) := by
  simp only [checkAuthentication, h, ht, if_true]
  cases getProp config "hostRules" <;> simp

theorem parseConfigs_of_resolve (options : List OptionDef) (fuel : Nat) (defaults : Obj)
    (find : List JVal → JVal → JVal → JVal) (appMode : Bool) (registered : List JVal)
    (defaultConfig fileConfig cliConfig envConfig : Obj) (config : JVal)
    (hres : resolveConfig options fuel defaultConfig fileConfig cliConfig envConfig =
      .ok config) :
    (parseConfigs options fuel defaults find appMode registered defaultConfig fileConfig
        cliConfig envConfig).registered =
      (checkAuthentication defaults find appMode registered config).registered ∧
    (∀ e, (checkAuthentication defaults find appMode registered config).outcome = .error e →
      (parseConfigs options fuel defaults find appMode registered defaultConfig fileConfig
        cliConfig envConfig).outcome = .error e) ∧
    (∀ c, (checkAuthentication defaults find appMode registered config).outcome = .ok c →
      (parseConfigs options fuel defaults find appMode registered defaultConfig fileConfig
        cliConfig envConfig).outcome =
        .ok (deleteProp (deleteProp c "logFile") "logFileLevel")) := by
  simp only [parseConfigs, hres]
  cases hc : checkAuthentication defaults find appMode registered config with
  | mk r o =>
    cases o with
    | ok c => simp
    | error e => simp

theorem getProp_authRecord_token (platformInfo config : JVal) :
    getProp (authRecord platformInfo config) "token" = authToken config := by
  simp [authRecord, getProp, objGet, objFind]

/-! ## Merging the four sources -/

theorem mergeLoop_skip_of {recurse : JVal → JVal → Except Fault JVal} {pc cc : JVal}
    (options : List OptionDef) (cfg : Obj)
    (h : ∀ o ∈ options, (o.mergeable && truthy (getProp cc o.name)) = false) :
    mergeLoop recurse pc cc options cfg = .ok cfg := by
  induction options with
  | nil => rfl
  | cons o rest ih =>
    have h1 := h o (List.mem_cons_self _ _)
    simp only [mergeLoop, mergeOption, h1, Bool.false_eq_true, if_false]
    exact ih (fun o1 ho1 => h o1 (List.mem_cons_of_mem _ ho1))

theorem mergeChildConfig_good_obj (options : List OptionDef) (fuel : Nat) (ps cs r : Obj)
    (hP : wellFormed (obj ps) = true) (hC : wellFormed (obj cs) = true)
    (hTp : conforms options (obj ps) = true) (hTc : conforms options (obj cs) = true)
    (hfp : depth (obj ps) < fuel) (hfc : depth (obj cs) < fuel)
    (h : mergeChildConfig options fuel (obj ps) (obj cs) = .ok (obj r)) :
    wellFormed (obj r) = true ∧ conforms options (obj r) = true ∧ depth (obj r) < fuel := by
  obtain ⟨h1, h2, h3⟩ := mergeChildConfig_good options fuel _ _ _ hP hC hTp hTc h
  refine ⟨h1, h2, lt_of_le_of_lt h3 ?_⟩
  exact max_lt hfp hfc

theorem mergeSources_overlay (options : List OptionDef) (fuel : Nat)
    (dc fc cc ec : Obj) (k : String)
    (hWd : wellFormed (obj dc) = true) (hWf : wellFormed (obj fc) = true)
    (hWc : wellFormed (obj cc) = true) (hWe : wellFormed (obj ec) = true)
    (hTd : conforms options (obj dc) = true) (hTf : conforms options (obj fc) = true)
    (hTc : conforms options (obj cc) = true) (hTe : conforms options (obj ec) = true)
    (hfd : depth (obj dc) < fuel) (hff : depth (obj fc) < fuel)
    (hfc : depth (obj cc) < fuel) (hfe : depth (obj ec) < fuel)
    (hnd : objFind dc "force" = none) (hnf : objFind fc "force" = none)
    (hnc : objFind cc "force" = none) (hne : objFind ec "force" = none)
    (hk : ∀ o ∈ options, o.mergeable = true → o.name ≠ k) :
    ∃ m, mergeSources options fuel dc fc cc ec = .ok (obj m) ∧
      wellFormed (obj m) = true ∧
      objFind m k =
        match objFind cc k with
        | some v => some v
        | none =>
          match objFind ec k with
          | some v => some v
          | none =>
            match objFind fc k with
            | some v => some v
            | none => objFind dc k := by
  obtain ⟨r1, h1, f1, k1⟩ := mergeChildConfig_overlay options fuel fc ec k hWf hWe hTf hff
    hnf hne hk
  obtain ⟨w1, c1, d1⟩ := mergeChildConfig_good_obj options fuel fc ec r1 hWf hWe hTf hTe
    hff hfe h1
  obtain ⟨r2, h2, f2, k2⟩ := mergeChildConfig_overlay options fuel r1 cc k w1 hWc c1 d1
    f1 hnc hk
  obtain ⟨w2, c2, d2⟩ := mergeChildConfig_good_obj options fuel r1 cc r2 w1 hWc c1 hTc
    d1 hfc h2
  obtain ⟨m, h3, _, k3⟩ := mergeChildConfig_overlay options fuel dc r2 k hWd w2 hTd hfd
    hnd f2 hk
  obtain ⟨w3, _, _⟩ := mergeChildConfig_good_obj options fuel dc r2 m hWd w2 hTd c2 hfd d2 h3
  refine ⟨m, ?_, w3, ?_⟩
  · simp only [mergeSources, h1, h2, h3]
  · rw [k3, k2, k1]
    cases objFind cc k <;> cases objFind ec k <;> cases objFind fc k <;> rfl

theorem mergeSources_returns (options : List OptionDef) (fuel : Nat)
    (dc fc cc ec : Obj)
    (hWd : wellFormed (obj dc) = true) (hWf : wellFormed (obj fc) = true)
    (hWc : wellFormed (obj cc) = true) (hWe : wellFormed (obj ec) = true)
    (hTd : conforms options (obj dc) = true) (hTf : conforms options (obj fc) = true)
    (hTc : conforms options (obj cc) = true) (hTe : conforms options (obj ec) = true)
    (hfd : depth (obj dc) < fuel) (hff : depth (obj fc) < fuel)
    (hfc : depth (obj cc) < fuel) (hfe : depth (obj ec) < fuel) :
    ∃ m, mergeSources options fuel dc fc cc ec = .ok (obj m) ∧
      wellFormed (obj m) = true := by
  obtain ⟨v1, h1⟩ := mergeChildConfig_returns options fuel (obj fc) (obj ec) hWf hTf hff
  obtain ⟨r1, rfl⟩ := mergeChildConfig_isObj options fuel fc _ v1 h1
  obtain ⟨w1, c1, d1⟩ := mergeChildConfig_good_obj options fuel fc ec r1 hWf hWe hTf hTe
    hff hfe h1
  obtain ⟨v2, h2⟩ := mergeChildConfig_returns options fuel (obj r1) (obj cc) w1 c1 d1
  obtain ⟨r2, rfl⟩ := mergeChildConfig_isObj options fuel r1 _ v2 h2
  obtain ⟨w2, c2, d2⟩ := mergeChildConfig_good_obj options fuel r1 cc r2 w1 hWc c1 hTc
    d1 hfc h2
  obtain ⟨v3, h3⟩ := mergeChildConfig_returns options fuel (obj dc) (obj r2) hWd hTd hfd
  obtain ⟨m, rfl⟩ := mergeChildConfig_isObj options fuel dc _ v3 h3
  obtain ⟨w3, _, _⟩ := mergeChildConfig_good_obj options fuel dc r2 m hWd w2 hTd c2 hfd d2 h3
  refine ⟨m, ?_, w3⟩
  simp only [mergeSources, h1, h2, h3]

theorem markCustomPrFooter_obj (dc m : Obj) (hW : wellFormed (obj m) = true) :
    ∃ m1, markCustomPrFooter dc (obj m) = obj m1 ∧ wellFormed (obj m1) = true ∧
      ∀ k, k ≠ "customPrFooter" → objFind m1 k = objFind m k := by
  unfold markCustomPrFooter
  by_cases h : strictEq (getProp (obj m) "prFooter") (objGet dc "prFooter") = true
  · rw [if_pos h]
    exact ⟨m, rfl, hW, fun _ _ => rfl⟩
  · rw [if_neg h]
    refine ⟨objSet m "customPrFooter" (.bool true), rfl, ?_, ?_⟩
    · rw [wellFormed_obj] at hW ⊢
      refine ⟨nodup_keys_objSet _ _ hW.1, fun p hp => ?_⟩
      rcases mem_objSet hp with h1 | h1
      · exact hW.2 p h1
      · rw [h1]
        rfl
    · intro k hk
      exact objFind_objSet_other _ _ _ _ (Ne.symm hk)

theorem mergeChildConfig_force_layer (options : List OptionDef) (fuel : Nat)
    (ps cli : Obj) (k : String)
    (hP : wellFormed (obj ps) = true) (hC : wellFormed (obj cli) = true)
    (hres : ∀ o ∈ options, o.mergeable = true → o.name ≠ "force")
    (hk : objHas cli k = true) :
    ∃ r, mergeChildConfig options (fuel + 1) (obj ps)
        (obj [("force", obj (objectAssign [] cli))]) = .ok (obj r) ∧
      objGet r k = objGet cli k := by
  have hnd := ((wellFormed_obj cli).mp hC).1
  rw [objectAssign_nil_left cli hnd]
  have hCw : wellFormed (obj [("force", obj cli)]) = true := by
    rw [wellFormed_obj]
    refine ⟨by simp, fun p hp => ?_⟩
    simp only [List.mem_singleton] at hp
    rw [hp]
    exact hC
  rw [mergeChildConfig_truthy options fuel (obj ps) (obj [("force", obj cli)]) hP rfl,
    cloneVal_of_wellFormed _ hCw]
  rw [mergeLoop_skip_of]
  · simp only [ownEntries_obj, objectAssign_nil_left ps ((wellFormed_obj ps).mp hP).1]
    refine ⟨_, rfl, ?_⟩
    have hf : objGet (objectAssign ps [("force", obj cli)]) "force" = obj cli := by
      simp [objectAssign, objGet, objFind_objSet_same]
    rw [hf, ownEntries_obj]
    obtain ⟨v, hv⟩ := (objHas_true_iff _ _).mp hk
    apply objGet_of_objFind_eq
    rw [objFind_objectAssign_present cli _ k v hnd hv, hv]
  · intro o ho
    cases hm : o.mergeable with
    | false => rfl
    | true =>
      have hne := hres o ho hm
      simp [getProp, objGet, objFind, Ne.symm hne, truthy]

/-- A registry with a mergeable non-array option named `0` makes the recursion endless
on one-character strings, since `'a'['0']` is `'a'` again: no amount of fuel lets the
call return. -/
theorem mergeChildConfig_index_zero_diverges (fuel : Nat) :
    mergeChildConfig [⟨"0", true, "object", none⟩] fuel (str "a") (str "d") =
      .error Fault.fuel := by
  induction fuel with
  | zero => rfl
  | succ n ih =>
    have hp : getProp (str "a") "0" = str "a" := by rfl
    have hc : getProp (str "d") "0" = str "d" := by rfl
    simp only [mergeChildConfig, truthy, clone, cloneVal, mergeLoop, mergeOption, hp, hc, ih]
    rfl

/-- C1. Plain overlay (child wins): for well-formed configurations `P` and `C` without
a `force` key, with `P` typed as the registry says, and every key `k` that is not a
mergeable option truthy on both sides, `mergeChildConfig(P, C)` returns an object whose
value at `k` is `C[k]` when `C` defines `k` and `P[k]` when it does not. -/
theorem mergeChildConfig_plain_overlay (options : List OptionDef) (fuel : Nat)
    (ps cs : Obj) (k : String)
    (hP : wellFormed (obj ps) = true) (hC : wellFormed (obj cs) = true)
    (hT : conforms options (obj ps) = true) (hfuel : depth (obj ps) < fuel)
    (hPf : objHas ps "force" = false) (hCf : objHas cs "force" = false)
    (hk : ¬ ∃ o ∈ options, o.mergeable = true ∧ o.name = k ∧
      truthy (objGet ps k) = true ∧ truthy (objGet cs k) = true) :
    ∃ r, mergeChildConfig options fuel (obj ps) (obj cs) = .ok (obj r) ∧
      (objHas cs k = true → objGet r k = objGet cs k) ∧
      (objHas cs k = false → objGet r k = objGet ps k) := by
  obtain ⟨n, rfl⟩ : ∃ n, fuel = n + 1 := ⟨fuel - 1, by omega⟩
  obtain ⟨cfg1, hloop, hres⟩ := mergeChildConfig_obj options n ps cs hP hC hT hfuel
  have hPf1 := (objHas_false_iff _ _).mp hPf
  have hCf1 := (objHas_false_iff _ _).mp hCf
  have hforce : objFind cfg1 "force" = none := by
    rw [mergeLoop_objFind_other options _ _ hloop, objFind_spread ps cs _ hC, hCf1, hPf1]
    intro o _ hn hcond
    rw [hn, getProp_obj, objGet_of_objFind_none hCf1] at hcond
    simp [truthy] at hcond
  have hkeep : objFind cfg1 k = objFind (objectAssign ps cs) k := by
    apply mergeLoop_objFind_other options _ _ hloop
    intro o ho hn hcond
    apply hk
    refine ⟨o, ho, hcond.1, hn, ?_, ?_⟩
    · simpa [hn, getProp_obj] using hcond.2.2
    · simpa [hn, getProp_obj] using hcond.2.1
  refine ⟨_, hres, ?_, ?_⟩
  · intro hh
    obtain ⟨v, hv⟩ := (objHas_true_iff _ _).mp hh
    simp only [objGet_of_objFind_none hforce, ownEntries, objectAssign, List.foldl_nil]
    rw [objGet, hkeep, objFind_spread ps cs k hC, hv]
    simp [objGet, hv]
  · intro hh
    have hv := (objHas_false_iff _ _).mp hh
    simp only [objGet_of_objFind_none hforce, ownEntries, objectAssign, List.foldl_nil]
    rw [objGet, hkeep, objFind_spread ps cs k hC, hv]
    simp [objGet]

/-- C2. Array-mergeable concatenation: for a registry with unique names in which
`force` is not a mergeable option, and an option `a` flagged mergeable with type
`array`, if `P.a` and `C.a` are non-empty arrays and no force block names `a`, then
`mergeChildConfig(P, C).a` is `P.a` followed by `C.a`, duplicates kept. -/
theorem mergeChildConfig_array_concat (options : List OptionDef) (fuel : Nat)
    (ps cs : Obj) (a : OptionDef) (xs ys : List JVal)
    (hP : wellFormed (obj ps) = true) (hC : wellFormed (obj cs) = true)
    (hT : conforms options (obj ps) = true) (hfuel : depth (obj ps) < fuel)
    (hnd : (options.map OptionDef.name).Nodup)
    (hres : ∀ o ∈ options, o.mergeable = true → o.name ≠ "force")
    (ha : a ∈ options) (hm : a.mergeable = true) (hty : a.type = "array")
    (hpa : objGet ps a.name = arr xs) (hca : objGet cs a.name = arr ys)
    (_hxs : xs ≠ []) (_hys : ys ≠ [])
    (hPf : hasOwn (objGet ps "force") a.name = false)
    (hCf : hasOwn (objGet cs "force") a.name = false) :
    ∃ r, mergeChildConfig options fuel (obj ps) (obj cs) = .ok (obj r) ∧
      objGet r a.name = arr (xs ++ ys) :=
  mergeChildConfig_array options fuel ps cs a xs ys hP hC hT hfuel hnd hres ha hm hty
    hpa hca hPf hCf

/-- Witness for C1 on the sample registry: `x` is overlaid by the child and `z`, which
only the parent defines, survives. -/
theorem mergeChildConfig_plain_overlay_witness :
    ∃ r, mergeChildConfig sampleOptions 2 (obj [("x", num 1), ("z", num 5)])
        (obj [("x", num 2)]) = .ok (obj r) ∧
      (objHas [("x", num 2)] "z" = true → objGet r "z" = objGet [("x", num 2)] "z") ∧
      (objHas [("x", num 2)] "z" = false →
        objGet r "z" = objGet [("x", num 1), ("z", num 5)] "z") :=
  mergeChildConfig_plain_overlay sampleOptions 2 [("x", num 1), ("z", num 5)]
    [("x", num 2)] "z" (by decide) (by decide) (by decide) (by decide) (by decide)
    (by decide) (by decide)

/-- Witness for C2: the example of the specification, `[1,2]` and `[3,4]`. -/
theorem mergeChildConfig_array_concat_witness :
    ∃ r, mergeChildConfig sampleOptions 3 (obj [("a", arr [num 1, num 2])])
        (obj [("a", arr [num 3, num 4])]) = .ok (obj r) ∧
      objGet r "a" = arr ([num 1, num 2] ++ [num 3, num 4]) :=
  mergeChildConfig_array_concat sampleOptions 3 [("a", arr [num 1, num 2])]
    [("a", arr [num 3, num 4])] ⟨"a", true, "array", some "package"⟩
    [num 1, num 2] [num 3, num 4] (by decide) (by decide) (by decide) (by decide)
    (by decide) (by decide) (by decide) rfl rfl rfl rfl (by simp) (by simp) rfl rfl

/-- C3. Nested-object mergeable recursion: for a registry with unique names in which
`force` is not a mergeable option, and an option `o` flagged mergeable with a type other
than `array`, if `P.o` and `C.o` are objects and no top-level force block names `o`,
then `mergeChildConfig(P, C).o` is the value returned by
`mergeChildConfig(P.o, C.o)`. -/
theorem mergeChildConfig_nested_object (options : List OptionDef) (fuel : Nat)
    (ps cs : Obj) (o : OptionDef) (po co : Obj)
    (hP : wellFormed (obj ps) = true) (hC : wellFormed (obj cs) = true)
    (hT : conforms options (obj ps) = true) (hfuel : depth (obj ps) < fuel)
    (hnd : (options.map OptionDef.name).Nodup)
    (hres : ∀ o1 ∈ options, o1.mergeable = true → o1.name ≠ "force")
    (ho : o ∈ options) (hm : o.mergeable = true) (hty : o.type ≠ "array")
    (hpo : objGet ps o.name = obj po) (hco : objGet cs o.name = obj co)
    (hPf : hasOwn (objGet ps "force") o.name = false)
    (hCf : hasOwn (objGet cs "force") o.name = false) :
    ∃ r s, mergeChildConfig options fuel (obj ps) (obj cs) = .ok (obj r) ∧
      mergeChildConfig options fuel (obj po) (obj co) = .ok s ∧
      objGet r o.name = s :=
  mergeChildConfig_at_object options fuel ps cs o po co hP hC hT hfuel hnd hres ho hm hty
    hpo hco hPf hCf

/-- Witness for C3: the example of the specification, `{o:{a:1}}` and `{o:{b:2}}`. -/
theorem mergeChildConfig_nested_object_witness :
    ∃ r s, mergeChildConfig sampleOptions 3 (obj [("o", obj [("x", num 1)])])
        (obj [("o", obj [("y", num 2)])]) = .ok (obj r) ∧
      mergeChildConfig sampleOptions 3 (obj [("x", num 1)]) (obj [("y", num 2)]) = .ok s ∧
      objGet r "o" = s :=
  mergeChildConfig_nested_object sampleOptions 3 [("o", obj [("x", num 1)])]
    [("o", obj [("y", num 2)])] ⟨"o", true, "object", some "repository"⟩
    [("x", num 1)] [("y", num 2)] (by decide) (by decide) (by decide) (by decide)
    (by decide) (by decide) (by decide) rfl (by decide) rfl rfl rfl rfl

/-- Counterexample to C4 as stated: `a` is a mergeable array option, the parent holds
the number 5 at `a` and forces `a`, the child holds an array and has no `force` key.
For every fuel the call ends in a `TypeError` (`(5).concat` is not a function) before
the force pass, so there is no result whose `a` could equal the forced value. -/
theorem mergeChildConfig_force_precedence_counterexample :
    wellFormed (obj [("a", num 5), ("force", obj [("a", arr [num 9])])]) = true ∧
    wellFormed (obj [("a", arr [num 1])]) = true ∧
    objGet [("a", num 5), ("force", obj [("a", arr [num 9])])] "force" =
      obj [("a", arr [num 9])] ∧
    objHas [("a", arr [num 1])] "force" = false ∧
    objHas [("a", arr [num 9])] "a" = true ∧
    ¬ ∃ fuel r, mergeChildConfig sampleOptions fuel
        (obj [("a", num 5), ("force", obj [("a", arr [num 9])])])
        (obj [("a", arr [num 1])]) = .ok r := by
  refine ⟨by decide, by decide, rfl, by decide, by decide, ?_⟩
  rintro ⟨fuel, r, h⟩
  cases fuel with
  | zero => simp [mergeChildConfig] at h
  | succ n =>
    have : mergeChildConfig sampleOptions (n + 1)
        (obj [("a", num 5), ("force", obj [("a", arr [num 9])])])
        (obj [("a", arr [num 1])]) = .error Fault.typeError := rfl
    rw [this] at h
    cases h

/-- C4, amended. Force precedence: for well-formed `P` and `C`, with `P` typed as the
registry says (force blocks unconstrained), `P` carrying a force block `F` and `C`
having no `force` key, every key `k` of `F` other than `__proto__` has value `F[k]` in
`mergeChildConfig(P, C)`, whether or not `k` is a mergeable option. -/
theorem mergeChildConfig_force_precedence (options : List OptionDef) (fuel : Nat)
    (ps cs fs : Obj) (k : String)
    (hP : wellFormed (obj ps) = true) (hC : wellFormed (obj cs) = true)
    (hT : typed options (obj ps) = true) (hfuel : depth (obj ps) < fuel)
    (hF : objGet ps "force" = obj fs) (hCf : objHas cs "force" = false)
    (hk : objHas fs k = true) (_hproto : k ≠ "__proto__") :
    ∃ r, mergeChildConfig options fuel (obj ps) (obj cs) = .ok (obj r) ∧
      objGet r k = objGet fs k := by
  have hCf1 := (objHas_false_iff _ _).mp hCf
  have hFw : wellFormed (obj fs) = true := by
    have := wellFormed_objGet ps "force" hP (by rw [hF]; rfl)
    rwa [hF] at this
  obtain ⟨r, hr, hforce, _⟩ := mergeChildConfig_force_block_typed options fuel ps cs
    (obj fs) hP hC hT hfuel
    (by
      intro o _ hn hcond
      rw [hn, getProp_obj, objGet_of_objFind_none hCf1] at hcond
      simp [truthy] at hcond)
    (by
      rw [objGet_spread ps cs _ hC, hCf]
      simpa using hF)
  exact ⟨r, hr, hforce fs k rfl ((wellFormed_obj fs).mp hFw).1 hk⟩

/-- Witness for C4 as amended: the example of the specification,
`merge({x:1, force:{x:9}}, {x:2})` has `x == 9`. -/
theorem mergeChildConfig_force_precedence_witness :
    ∃ r, mergeChildConfig sampleOptions 3
        (obj [("x", num 1), ("force", obj [("x", num 9)])]) (obj [("x", num 2)]) =
          .ok (obj r) ∧
      objGet r "x" = objGet [("x", num 9)] "x" :=
  mergeChildConfig_force_precedence sampleOptions 3
    [("x", num 1), ("force", obj [("x", num 9)])] [("x", num 2)] [("x", num 9)] "x"
    (by decide) (by decide) (by decide) (by decide) rfl (by decide) (by decide) (by decide)

/-- Counterexample to C5 as stated: both sides carry a force block; the parent's block
forces `x` to 9, yet the merged value of `x` is the child's 2, because the child's
`force` key replaced the parent's in the overlay. -/
theorem mergeChildConfig_force_either_side_counterexample :
    mergeChildConfig sampleOptions 3 (obj [("force", obj [("x", num 9)])])
        (obj [("x", num 2), ("force", obj [("y", num 1)])]) =
      .ok (obj [("force", obj [("y", num 1)]), ("x", num 2), ("y", num 1)]) ∧
    objHas [("x", num 9)] "x" = true ∧
    objGet [("force", obj [("y", num 1)]), ("x", num 2), ("y", num 1)] "x" ≠
      objGet [("x", num 9)] "x" := by
  refine ⟨rfl, rfl, ?_⟩
  simp [objGet, objFind]

/-- C5, amended. For well-formed `P` and `C`, with `P` typed as the registry says and
`force` not a mergeable option of the registry, the force block that takes effect is
the one of the overlay: the child's when the child defines `force`, otherwise the
parent's. When that block is an object `F` without a key `__proto__`, every key `k` of
`F` has value `F[k]` in `mergeChildConfig(P, C)`; every key outside it that is not a
mergeable option truthy on both sides keeps its overlay value (the child's if the child
defines it, else the parent's), so a parent block replaced by the child's is not
applied. -/
theorem mergeChildConfig_force_effective (options : List OptionDef) (fuel : Nat)
    (ps cs : Obj) (force : JVal)
    (hP : wellFormed (obj ps) = true) (hC : wellFormed (obj cs) = true)
    (hT : typed options (obj ps) = true) (hfuel : depth (obj ps) < fuel)
    (hres : ∀ o ∈ options, o.mergeable = true → o.name ≠ "force")
    (hF : (if objHas cs "force" = true then objGet cs "force" else objGet ps "force") =
      force)
    (_hproto : hasOwn force "__proto__" = false) :
    ∃ r, mergeChildConfig options fuel (obj ps) (obj cs) = .ok (obj r) ∧
      (∀ fs k, force = obj fs → objHas fs k = true → objGet r k = objGet fs k) ∧
      (∀ j, hasOwn force j = false →
        (¬ ∃ o ∈ options, o.mergeable = true ∧ o.name = j ∧
          truthy (objGet ps j) = true ∧ truthy (objGet cs j) = true) →
        objGet r j = if objHas cs j = true then objGet cs j else objGet ps j) := by
  obtain ⟨r, hr, hforce, hout⟩ := mergeChildConfig_force_block_typed options fuel ps cs
    force hP hC hT hfuel
    (by
      intro o ho hn hcond
      exact hres o ho hcond.1 hn)
    (by
      rw [objGet_spread ps cs _ hC]
      exact hF)
  refine ⟨r, hr, fun fs k hfs hk => ?_, hout⟩
  have hFw : wellFormed (obj fs) = true := by
    by_cases hc : objHas cs "force" = true
    · rw [if_pos hc, hfs] at hF
      have := wellFormed_objGet cs "force" hC (by rw [hF]; rfl)
      rwa [hF] at this
    · rw [if_neg hc, hfs] at hF
      have := wellFormed_objGet ps "force" hP (by rw [hF]; rfl)
      rwa [hF] at this
  exact hforce fs k hfs ((wellFormed_obj fs).mp hFw).1 hk

/-- Witness for C5 as amended: both sides carry a force block and the child's wins; the
key `x` of the parent's block keeps the child's value. -/
theorem mergeChildConfig_force_effective_witness :
    ∃ r, mergeChildConfig sampleOptions 3 (obj [("force", obj [("x", num 9)])])
        (obj [("x", num 2), ("force", obj [("y", num 1)])]) = .ok (obj r) ∧
      (∀ fs k, obj [("y", num 1)] = obj fs → objHas fs k = true →
        objGet r k = objGet fs k) ∧
      (∀ j, hasOwn (obj [("y", num 1)]) j = false →
        (¬ ∃ o ∈ sampleOptions, o.mergeable = true ∧ o.name = j ∧
          truthy (objGet [("force", obj [("x", num 9)])] j) = true ∧
          truthy (objGet [("x", num 2), ("force", obj [("y", num 1)])] j) = true) →
        objGet r j =
          if objHas [("x", num 2), ("force", obj [("y", num 1)])] j = true
          then objGet [("x", num 2), ("force", obj [("y", num 1)])] j
          else objGet [("force", obj [("x", num 9)])] j) :=
  mergeChildConfig_force_effective sampleOptions 3 [("force", obj [("x", num 9)])]
    [("x", num 2), ("force", obj [("y", num 1)])] (obj [("y", num 1)])
    (by decide) (by decide) (by decide) (by decide) (by decide) rfl (by decide)

/-- C6. Merge identity for an absent child: with `undefined` as child, and likewise
with each of the other falsy values `null`, `false`, `0` and the empty string,
`mergeChildConfig(P, child)` returns `P` itself, for every `P`. -/
theorem mergeChildConfig_absent_child (options : List OptionDef) (fuel : Nat)
    (parent : JVal) :
    mergeChildConfig options (fuel + 1) parent undefined = .ok parent ∧
    mergeChildConfig options (fuel + 1) parent null = .ok parent ∧
    mergeChildConfig options (fuel + 1) parent (.bool false) = .ok parent ∧
    mergeChildConfig options (fuel + 1) parent (num 0) = .ok parent ∧
    mergeChildConfig options (fuel + 1) parent (str "") = .ok parent :=
  ⟨mergeChildConfig_falsy options fuel parent _ rfl,
   mergeChildConfig_falsy options fuel parent _ rfl,
   mergeChildConfig_falsy options fuel parent _ rfl,
   mergeChildConfig_falsy options fuel parent _ rfl,
   mergeChildConfig_falsy options fuel parent _ rfl⟩

/-- Counterexample to C7 as stated: the parent `{x:1, force:{x:9}}` merged with the
empty object comes back as `{x:9, force:{x:9}}`, which differs from the parent at
`x`. -/
theorem mergeChildConfig_empty_identity_counterexample :
    mergeChildConfig sampleOptions 3 (obj [("x", num 1), ("force", obj [("x", num 9)])])
        (obj []) =
      .ok (obj [("x", num 9), ("force", obj [("x", num 9)])]) ∧
    obj [("x", num 9), ("force", obj [("x", num 9)])] ≠
      obj [("x", num 1), ("force", obj [("x", num 9)])] := by
  refine ⟨rfl, ?_⟩
  simp

/-- C7, amended. For every well-formed configuration `P` whose force block, if any,
has no key `__proto__`, `mergeChildConfig(P, {})` returns `P` with the entries of its
own force block assigned over its top-level keys; when `P` carries no `force` key the
result is equal to `P`. -/
theorem mergeChildConfig_empty_identity (options : List OptionDef) (fuel : Nat) (ps : Obj)
    (hP : wellFormed (obj ps) = true)
    (_hproto : hasOwn (objGet ps "force") "__proto__" = false) :
    mergeChildConfig options (fuel + 1) (obj ps) (obj []) =
        .ok (obj (objectAssign ps (ownEntries (objGet ps "force")))) ∧
    (objHas ps "force" = false →
      mergeChildConfig options (fuel + 1) (obj ps) (obj []) = .ok (obj ps)) := by
  refine ⟨mergeChildConfig_empty_child options fuel ps hP, fun hf => ?_⟩
  rw [mergeChildConfig_empty_child options fuel ps hP,
    objGet_of_objFind_none ((objHas_false_iff _ _).mp hf)]
  simp [ownEntries, objectAssign]

/-- Witness for C7 as amended: a parent without force block comes back unchanged. -/
theorem mergeChildConfig_empty_identity_witness :
    mergeChildConfig sampleOptions 1 (obj [("x", num 1), ("a", arr [num 1])]) (obj []) =
        .ok (obj (objectAssign [("x", num 1), ("a", arr [num 1])]
          (ownEntries (objGet [("x", num 1), ("a", arr [num 1])] "force")))) ∧
    (objHas [("x", num 1), ("a", arr [num 1])] "force" = false →
      mergeChildConfig sampleOptions 1 (obj [("x", num 1), ("a", arr [num 1])]) (obj []) =
        .ok (obj [("x", num 1), ("a", arr [num 1])])) :=
  mergeChildConfig_empty_identity sampleOptions 0 [("x", num 1), ("a", arr [num 1])]
    (by decide) (by decide)

/-- C8. Empty-array asymmetry: for a mergeable array option `a`, with `P.a` a
non-empty array and `C.a` the empty array (no force block naming `a`),
`mergeChildConfig(P, C).a` equals `P.a`: the empty array of the child does not
override the array of the parent. -/
theorem mergeChildConfig_empty_array (options : List OptionDef) (fuel : Nat)
    (ps cs : Obj) (a : OptionDef) (xs : List JVal)
    (hP : wellFormed (obj ps) = true) (hC : wellFormed (obj cs) = true)
    (hT : conforms options (obj ps) = true) (hfuel : depth (obj ps) < fuel)
    (hnd : (options.map OptionDef.name).Nodup)
    (hres : ∀ o ∈ options, o.mergeable = true → o.name ≠ "force")
    (ha : a ∈ options) (hm : a.mergeable = true) (hty : a.type = "array")
    (hpa : objGet ps a.name = arr xs) (_hxs : xs ≠ []) (hca : objGet cs a.name = arr [])
    (hPf : hasOwn (objGet ps "force") a.name = false)
    (hCf : hasOwn (objGet cs "force") a.name = false) :
    ∃ r, mergeChildConfig options fuel (obj ps) (obj cs) = .ok (obj r) ∧
      objGet r a.name = objGet ps a.name := by
  obtain ⟨r, h1, h2⟩ := mergeChildConfig_array options fuel ps cs a xs [] hP hC hT hfuel
    hnd hres ha hm hty hpa hca hPf hCf
  exact ⟨r, h1, by rw [h2, hpa, List.append_nil]⟩

/-- Witness for C8: the example of the specification, `[1,2]` and `[]`. -/
theorem mergeChildConfig_empty_array_witness :
    ∃ r, mergeChildConfig sampleOptions 3 (obj [("a", arr [num 1, num 2])])
        (obj [("a", arr [])]) = .ok (obj r) ∧
      objGet r "a" = objGet [("a", arr [num 1, num 2])] "a" :=
  mergeChildConfig_empty_array sampleOptions 3 [("a", arr [num 1, num 2])]
    [("a", arr [])] ⟨"a", true, "array", some "package"⟩ [num 1, num 2]
    (by decide) (by decide) (by decide) (by decide) (by decide) (by decide) (by decide)
    rfl rfl rfl (by simp) rfl rfl rfl

/-- C9. Stage filter characterisation: a key `k` is present in `filterConfig(c, t)`
exactly when it is present in `c` and the registry has no option named `k` whose
declared stage is one of the five stages and strictly precedes `t`; a retained key
keeps its value. For `t = 'package'` every option declared `global` or `repository` is
absent and a key is kept when no option of that name is declared `global` or
`repository`; for a `t` outside the stage order the config keeps all its keys. -/
theorem filterConfig_characterisation (options : List OptionDef) (es : Obj) (t k : String)
    (hnd : (es.map Prod.fst).Nodup) :
    ∃ out, filterConfig options (obj es) t = obj out ∧
      (objHas out k = true ↔
        (objHas es k = true ∧
          ¬ ∃ o ∈ options, o.name = k ∧ ∃ s, o.stage = some s ∧ stagePrecedes s t = true)) ∧
      (objHas out k = true → objGet out k = objGet es k) ∧
      (t = "package" →
        (∀ o ∈ options, o.stage = some "global" ∨ o.stage = some "repository" →
          objHas out o.name = false) ∧
        ((¬ ∃ o ∈ options, o.name = k ∧
            (o.stage = some "global" ∨ o.stage = some "repository")) →
          objFind out k = objFind es k)) ∧
      (stageRank t = none → objFind out k = objFind es k) := by
  refine ⟨_, rfl, ?_, ?_, ?_, ?_⟩
  · have hk := objFind_filterConfig options es t k hnd
    simp only [objHas, hk]
    split
    · rename_i h
      simp [h]
    · rename_i h
      simp [h]
  · have hk := objFind_filterConfig options es t k hnd
    simp only [objHas, objGet, hk]
    split <;> simp_all
  · intro ht
    subst ht
    constructor
    · intro o ho hst
      have hk := objFind_filterConfig options es "package" o.name hnd
      simp only [objHas, hk]
      rw [if_pos]
      · rfl
      · rcases hst with h | h
        · exact ⟨o, ho, rfl, "global", h, by decide⟩
        · exact ⟨o, ho, rfl, "repository", h, by decide⟩
    · intro hno
      have hk := objFind_filterConfig options es "package" k hnd
      rw [hk, if_neg]
      rintro ⟨o, ho, hn, s, hs, hp⟩
      apply hno
      refine ⟨o, ho, hn, ?_⟩
      have hr : stageRank s = some 0 ∨ stageRank s = some 1 := by
        simp only [stagePrecedes] at hp
        have h2 : stageRank "package" = some 2 := by decide
        rw [h2] at hp
        cases hrs : stageRank s with
        | none => simp [hrs] at hp
        | some i =>
          simp only [hrs, decide_eq_true_eq] at hp
          have : i = 0 ∨ i = 1 := by omega
          rcases this with h | h <;> simp [h]
      have hname : s = "global" ∨ s = "repository" := by
        unfold stageRank at hr
        split at hr <;> simp_all
      rcases hname with h | h
      · left; rw [hs, h]
      · right; rw [hs, h]
  · intro ht
    have hk := objFind_filterConfig options es t k hnd
    rw [hk, if_neg]
    rintro ⟨o, _, _, s, _, hp⟩
    simp only [stagePrecedes, ht] at hp
    cases hrs : stageRank s <;> simp [hrs] at hp

/-- Witness for C9 on the sample registry with target stage `package`. -/
theorem filterConfig_characterisation_witness :
    ∃ out, filterConfig sampleOptions
        (obj [("x", num 1), ("o", obj []), ("a", arr []), ("y", num 2), ("w", num 3)])
        "package" = obj out ∧
      (objHas out "x" = true ↔
        (objHas [("x", num 1), ("o", obj []), ("a", arr []), ("y", num 2), ("w", num 3)]
            "x" = true ∧
          ¬ ∃ o ∈ sampleOptions, o.name = "x" ∧
            ∃ s, o.stage = some s ∧ stagePrecedes s "package" = true)) ∧
      (objHas out "x" = true → objGet out "x" =
        objGet [("x", num 1), ("o", obj []), ("a", arr []), ("y", num 2), ("w", num 3)]
          "x") ∧
      ("package" = "package" →
        (∀ o ∈ sampleOptions, o.stage = some "global" ∨ o.stage = some "repository" →
          objHas out o.name = false) ∧
        ((¬ ∃ o ∈ sampleOptions, o.name = "x" ∧
            (o.stage = some "global" ∨ o.stage = some "repository")) →
          objFind out "x" =
            objFind [("x", num 1), ("o", obj []), ("a", arr []), ("y", num 2),
              ("w", num 3)] "x")) ∧
      (stageRank "package" = none → objFind out "x" =
        objFind [("x", num 1), ("o", obj []), ("a", arr []), ("y", num 2), ("w", num 3)]
          "x") :=
  filterConfig_characterisation sampleOptions
    [("x", num 1), ("o", obj []), ("a", arr []), ("y", num 2), ("w", num 3)]
    "package" "x" (by decide)

/-- C10. Manager-config isolation: for a well-formed, conforming config whose language
block conforms as well, and registry lists that do not contain the field names
`language` and `manager`, `getManagerConfig(config, M)` returns an object without any
key named after a known language or a known manager. -/
theorem getManagerConfig_isolation (options : List OptionDef)
    (getLanguage : String → Option String) (languageList managerList : List String)
    (fuel : Nat) (config : Obj) (manager : String)
    (hW : wellFormed (obj config) = true) (hT : conforms options (obj config) = true)
    (hfuel : depth (obj config) < fuel)
    (hL : ∀ l, getLanguage manager = some l → truthy (objGet config l) = true →
      conforms options (objGet config l) = true)
    (hlang : "language" ∉ languageList ++ managerList)
    (hman : "manager" ∉ languageList ++ managerList) :
    ∃ r, getManagerConfig options getLanguage languageList managerList fuel config
        manager = .ok r ∧
      ∀ i ∈ languageList ++ managerList, hasOwn r.managerConfig i = false := by
  obtain ⟨es1, es2, _, _, hr⟩ := getManagerConfig_returns options getLanguage
    languageList managerList fuel config manager hW hT hfuel hL
  refine ⟨_, hr, fun i hi => ?_⟩
  have h1 : "manager" ≠ i := fun h => hman (h ▸ hi)
  have h2 : "language" ≠ i := fun h => hlang (h ▸ hi)
  simp only [hasOwn, ownEntries_obj, objHas]
  rw [objFind_objSet_other _ _ _ _ h1, objFind_objSet_other _ _ _ _ h2,
    objFind_foldl_objDelete, if_pos hi]
  rfl

/-- Witness for C10: manager `npm` of language `node`, with blocks for `node`, `npm`
and a sibling manager `pip`. -/
theorem getManagerConfig_isolation_witness :
    ∃ r, getManagerConfig sampleOptions
        (fun m => if m = "npm" then some "node" else none)
        ["node", "python"] ["npm", "pip"] 3
        [("x", num 1), ("node", obj [("x", num 2)]), ("npm", obj [("y", num 2)]),
          ("pip", obj [("y", num 7)])] "npm" = .ok r ∧
      ∀ i ∈ ["node", "python"] ++ ["npm", "pip"], hasOwn r.managerConfig i = false :=
  getManagerConfig_isolation sampleOptions
    (fun m => if m = "npm" then some "node" else none)
    ["node", "python"] ["npm", "pip"] 3
    [("x", num 1), ("node", obj [("x", num 2)]), ("npm", obj [("y", num 2)]),
      ("pip", obj [("y", num 7)])] "npm" (by decide) (by decide) (by decide)
    (by
      intro l hl _
      have : l = "node" := by simpa using hl.symm
      subst this
      decide)
    (by decide) (by decide)

/-- C11. Manager over language over base: for a manager `M` whose language is `L`, and
a key `k` that is not a mergeable option, not a known language or manager name, not
`language` or `manager`, with no force block in the config or in either block,
`getManagerConfig(config, M)[k]` is `config[M][k]` if the block `config[M]` defines
`k`, else `config[L][k]` if the block `config[L]` defines `k`, else `config[k]`; the
result has `language` equal to `L` and `manager` equal to `M`. -/
theorem getManagerConfig_precedence (options : List OptionDef)
    (getLanguage : String → Option String) (languageList managerList : List String)
    (fuel : Nat) (config : Obj) (manager language k : String)
    (hW : wellFormed (obj config) = true) (hT : conforms options (obj config) = true)
    (hfuel : depth (obj config) < fuel)
    (hlang : getLanguage manager = some language) (hne : language ≠ "")
    (hL : truthy (objGet config language) = true →
      conforms options (objGet config language) = true)
    (hM : truthy (objGet config manager) = true → isObj (objGet config manager) = true)
    (hk : ∀ o ∈ options, o.mergeable = true → o.name ≠ k)
    (hkl : k ∉ languageList ++ managerList) (hk1 : k ≠ "language") (hk2 : k ≠ "manager")
    (hf0 : objHas config "force" = false)
    (hf1 : hasOwn (objGet config language) "force" = false)
    (hf2 : hasOwn (objGet config manager) "force" = false) :
    ∃ r, getManagerConfig options getLanguage languageList managerList fuel config
        manager = .ok r ∧
      getProp r.managerConfig k =
        (if hasOwn (objGet config manager) k = true then
          getProp (objGet config manager) k
        else if hasOwn (objGet config language) k = true then
          getProp (objGet config language) k
        else objGet config k) ∧
      getProp r.managerConfig "language" = str language ∧
      getProp r.managerConfig "manager" = str manager := by
  have hL1 : ∀ l, getLanguage manager = some l → truthy (objGet config l) = true →
      conforms options (objGet config l) = true := by
    intro l hl ht
    rw [hlang] at hl
    cases hl
    exact hL ht
  obtain ⟨es1, h1, hw1, hc1, hd1⟩ := getManagerConfig_language_step options
    (getLanguage manager) fuel config hW hT hfuel hL1
  have htl : truthy (languageValue (some language)) = true := by
    simp [languageValue, truthy, hne]
  have h1a : mergeChildConfig options fuel (obj config) (objGet config language) =
      .ok (obj es1) := by
    have := h1
    rw [hlang, if_pos htl] at this
    exact this
  obtain ⟨r1, hr1, hr1f, hr1k⟩ := mergeChildConfig_block options fuel config
    (objGet config language) k hW hT hfuel
    (fun ht => ⟨wellFormed_objGet config language hW ht, by
      obtain ⟨es, hes⟩ := isObj_of_conforms (hL ht)
      rw [hes]
      rfl⟩)
    ((objHas_false_iff _ _).mp hf0) hf1 hk
  have he1 : r1 = es1 := by
    rw [hr1] at h1a
    simpa using h1a
  subst he1
  obtain ⟨r2, hr2, _, hr2k⟩ := mergeChildConfig_block options fuel r1
    (objGet config manager) k hw1 hc1 (by omega)
    (fun ht => ⟨wellFormed_objGet config manager hW ht, hM ht⟩) hr1f hf2 hk
  refine ⟨_, getManagerConfig_of_steps options getLanguage languageList managerList fuel
    config manager r1 r2 h1 hr2, ?_, ?_, ?_⟩
  · simp only [getProp_obj]
    rw [← hr1k, ← hr2k]
    apply objGet_of_objFind_eq
    rw [objFind_objSet_other _ _ _ _ (Ne.symm hk2), objFind_objSet_other _ _ _ _ (Ne.symm hk1),
      objFind_foldl_objDelete, if_neg hkl]
  · simp only [getProp_obj, objGet]
    rw [objFind_objSet_other _ _ _ _ (by decide), objFind_objSet_same, hlang]
    rfl
  · simp only [getProp_obj, objGet]
    rw [objFind_objSet_same]

/-- Witness for C11: manager `npm` of language `node`; `y` comes from the manager
block, which overrides the language block and the base config. -/
theorem getManagerConfig_precedence_witness :
    ∃ r, getManagerConfig sampleOptions
        (fun m => if m = "npm" then some "node" else none)
        ["node", "python"] ["npm", "pip"] 3
        [("y", num 1), ("node", obj [("y", num 2), ("z", num 3)]),
          ("npm", obj [("y", num 4)])] "npm" = .ok r ∧
      getProp r.managerConfig "y" =
        (if hasOwn (objGet [("y", num 1), ("node", obj [("y", num 2), ("z", num 3)]),
            ("npm", obj [("y", num 4)])] "npm") "y" = true then
          getProp (objGet [("y", num 1), ("node", obj [("y", num 2), ("z", num 3)]),
            ("npm", obj [("y", num 4)])] "npm") "y"
        else if hasOwn (objGet [("y", num 1), ("node", obj [("y", num 2), ("z", num 3)]),
            ("npm", obj [("y", num 4)])] "node") "y" = true then
          getProp (objGet [("y", num 1), ("node", obj [("y", num 2), ("z", num 3)]),
            ("npm", obj [("y", num 4)])] "node") "y"
        else objGet [("y", num 1), ("node", obj [("y", num 2), ("z", num 3)]),
            ("npm", obj [("y", num 4)])] "y") ∧
      getProp r.managerConfig "language" = str "node" ∧
      getProp r.managerConfig "manager" = str "npm" :=
  getManagerConfig_precedence sampleOptions
    (fun m => if m = "npm" then some "node" else none)
    ["node", "python"] ["npm", "pip"] 3
    [("y", num 1), ("node", obj [("y", num 2), ("z", num 3)]),
      ("npm", obj [("y", num 4)])] "npm" "node" "y"
    (by decide) (by decide) (by decide) (by decide) (by decide) (by decide) (by decide)
    (by decide) (by decide) (by decide) (by decide) (by decide) (by decide) (by decide)

/-- C12. Manager with nothing to inherit: when `M` has no language and `config` has no
block named `M`, `getManagerConfig(config, M)` is the input config with every known
language-named and manager-named key removed, with `language` set to `undefined` and
`manager` set to `M`. -/
theorem getManagerConfig_nothing_to_inherit (options : List OptionDef)
    (getLanguage : String → Option String) (languageList managerList : List String)
    (fuel : Nat) (config : Obj) (manager : String)
    (hlang : getLanguage manager = none) (hblock : objHas config manager = false) :
    ∃ r, getManagerConfig options getLanguage languageList managerList (fuel + 1) config
        manager = .ok r ∧
      r.managerConfig = obj (objSet (objSet
        ((languageList ++ managerList).foldl objDelete config)
        "language" undefined) "manager" (str manager)) := by
  have hb : objGet config manager = undefined :=
    objGet_of_objFind_none ((objHas_false_iff _ _).mp hblock)
  have h2 : mergeChildConfig options (fuel + 1) (obj config) (objGet config manager) =
      .ok (obj config) := by
    rw [hb]
    exact mergeChildConfig_falsy options fuel _ _ rfl
  have h1 : (if truthy (languageValue (getLanguage manager)) = true then
        mergeChildConfig options (fuel + 1) (obj config)
          (match getLanguage manager with
           | some l => objGet config l
           | none => undefined)
      else .ok (obj config)) = .ok (obj config) := by
    rw [hlang]
    rfl
  refine ⟨_, getManagerConfig_of_steps options getLanguage languageList managerList
    (fuel + 1) config manager config config h1 h2, ?_⟩
  simp only [hlang, languageValue]

/-- Witness for C12: manager `pip` without language and without block. -/
theorem getManagerConfig_nothing_to_inherit_witness :
    ∃ r, getManagerConfig sampleOptions (fun _ => none) ["node"] ["npm", "pip"] (0 + 1)
        [("x", num 1), ("npm", obj [("y", num 2)])] "pip" = .ok r ∧
      r.managerConfig = obj (objSet (objSet
        ((["node"] ++ ["npm", "pip"]).foldl objDelete
          [("x", num 1), ("npm", obj [("y", num 2)])])
        "language" undefined) "manager" (str "pip")) :=
  getManagerConfig_nothing_to_inherit sampleOptions (fun _ => none) ["node"]
    ["npm", "pip"] 0 [("x", num 1), ("npm", obj [("y", num 2)])] "pip" rfl (by decide)

/-- C13, at the failing input. Manager `pip` has no language and the config has no
block named `pip`: `mergeChildConfig` hands back the caller's object both times, so the
deletions and assignments of `getManagerConfig` act on it. After the call the caller's
config has lost its `npm` block and gained `language` and `manager`. -/
theorem getManagerConfig_mutates_source :
    getManagerConfig sampleOptions (fun _ => none) ["node"] ["npm", "pip"] 1
        [("x", num 1), ("npm", obj [("y", num 2)])] "pip" =
      .ok ⟨obj [("x", num 1), ("language", undefined), ("manager", str "pip")],
           obj [("x", num 1), ("language", undefined), ("manager", str "pip")]⟩ := by
  rfl

/-- C20. Stage views compose and only get narrower: filtering for stage `s` and then
for stage `t` equals filtering once for the later of the two (an unrecognised stage
counting as earliest); hence the filter is idempotent, two filters commute, and when
`s` does not come after `t` every key of `filterConfig(c, t)` is a key of
`filterConfig(c, s)`. -/
theorem filterConfig_compose (options : List OptionDef) (es : Obj) (s t : String)
    (hnd : (es.map Prod.fst).Nodup) :
    filterConfig options (filterConfig options (obj es) s) t =
        filterConfig options (obj es) (laterStage s t) ∧
    filterConfig options (filterConfig options (obj es) t) t =
        filterConfig options (obj es) t ∧
    filterConfig options (filterConfig options (obj es) s) t =
        filterConfig options (filterConfig options (obj es) t) s ∧
    (stagePosition s ≤ stagePosition t →
      ∀ k, hasOwn (filterConfig options (obj es) t) k = true →
        hasOwn (filterConfig options (obj es) s) k = true) := by
  refine ⟨?_, ?_, ?_, ?_⟩
  · rw [filterConfig_twice options es s t hnd, filterConfig_eq_filter options es _ hnd]
    congr 1
    apply List.filter_congr
    intro p _
    rw [stageRemoves_later]
  · rw [filterConfig_twice options es t t hnd, filterConfig_eq_filter options es _ hnd]
    congr 1
    apply List.filter_congr
    intro p _
    rw [Bool.or_self]
  · rw [filterConfig_twice options es s t hnd, filterConfig_twice options es t s hnd]
    congr 1
    apply List.filter_congr
    intro p _
    rw [Bool.or_comm]
  · intro hst k hk
    have h1 := objFind_filterConfig options es t k hnd
    have h2 := objFind_filterConfig options es s k hnd
    simp only [filterConfig, hasOwn, ownEntries_obj, objHas] at hk h1 h2 ⊢
    rw [h1] at hk
    rw [h2]
    split at hk
    · simp at hk
    · rename_i hno
      rw [if_neg]
      · exact hk
      · rintro ⟨o, ho, hn, st, hst1, hp⟩
        apply hno
        refine ⟨o, ho, hn, st, hst1, ?_⟩
        simp only [stagePrecedes, stagePosition] at hp hst ⊢
        cases hrs : stageRank st with
        | none => simp [hrs] at hp
        | some i =>
          cases hs : stageRank s with
          | none => simp [hrs, hs] at hp
          | some j =>
            cases ht : stageRank t with
            | none =>
              simp only [hs, ht] at hst
              have := Int.natCast_nonneg j
              exact absurd (le_trans this hst) (by decide)
            | some l =>
              simp only [hrs, hs, ht, decide_eq_true_eq, Nat.cast_le] at hp hst ⊢
              omega

/-- Witness for C20 on the sample registry, stages `package` and `pr`. -/
theorem filterConfig_compose_witness :
    filterConfig sampleOptions (filterConfig sampleOptions
        (obj [("x", num 1), ("a", arr []), ("y", num 2)]) "package") "pr" =
        filterConfig sampleOptions (obj [("x", num 1), ("a", arr []), ("y", num 2)])
          (laterStage "package" "pr") ∧
    filterConfig sampleOptions (filterConfig sampleOptions
        (obj [("x", num 1), ("a", arr []), ("y", num 2)]) "pr") "pr" =
        filterConfig sampleOptions (obj [("x", num 1), ("a", arr []), ("y", num 2)]) "pr" ∧
    filterConfig sampleOptions (filterConfig sampleOptions
        (obj [("x", num 1), ("a", arr []), ("y", num 2)]) "package") "pr" =
        filterConfig sampleOptions (filterConfig sampleOptions
          (obj [("x", num 1), ("a", arr []), ("y", num 2)]) "pr") "package" ∧
    (stagePosition "package" ≤ stagePosition "pr" →
      ∀ k, hasOwn (filterConfig sampleOptions
          (obj [("x", num 1), ("a", arr []), ("y", num 2)]) "pr") k = true →
        hasOwn (filterConfig sampleOptions
          (obj [("x", num 1), ("a", arr []), ("y", num 2)]) "package") k = true) :=
  filterConfig_compose sampleOptions [("x", num 1), ("a", arr []), ("y", num 2)]
    "package" "pr" (by decide)

/-- C14. Credential derivation precedence: for a resolved config with a supported
platform, when `username` and `password` are both present the record registered for
the host carries the base64 encoding of `username:password` as token, whatever
`config.token` is; when they are not both present (and there is a token) it carries
`config.token`. The platform, the username and the password are values whose text is
exact (strings, for instance). -/
theorem parseConfigs_credential_precedence (options : List OptionDef) (fuel : Nat)
    (defaults : Obj) (find : List JVal → JVal → JVal → JVal) (appMode : Bool)
    (registered : List JVal) (defaultConfig fileConfig cliConfig envConfig : Obj)
    (config : JVal) (rules : List JVal)
    (hres : resolveConfig options fuel defaultConfig fileConfig cliConfig envConfig =
      .ok config)
    (hplat : truthy (objGet defaults (toStr (getProp config "platform"))) = true)
    (hrules : getProp config "hostRules" = arr rules)
    (_hxp : textExact (getProp config "platform") = true)
    (_hxu : textExact (getProp config "username") = true)
    (_hxw : textExact (getProp config "password") = true) :
    (truthy (getProp config "username") = true ∧
        truthy (getProp config "password") = true →
      ∃ record tail,
        (parseConfigs options fuel defaults find appMode registered defaultConfig
          fileConfig cliConfig envConfig).registered =
            registered ++ (rules ++ [record]) ++ tail ∧
        getProp record "token" =
          str (base64 (toStr (getProp config "username") ++ ":" ++
            toStr (getProp config "password")))) ∧
    (¬(truthy (getProp config "username") = true ∧
          truthy (getProp config "password") = true) →
      truthy (getProp config "token") = true →
      ∃ record tail,
        (parseConfigs options fuel defaults find appMode registered defaultConfig
          fileConfig cliConfig envConfig).registered =
            registered ++ (rules ++ [record]) ++ tail ∧
        getProp record "token" = getProp config "token") := by
  have hp := (parseConfigs_of_resolve options fuel defaults find appMode registered
    defaultConfig fileConfig cliConfig envConfig config hres).1
  constructor
  · intro hboth
    obtain ⟨htok, htr⟩ := truthy_authToken_of_credentials config hboth.1 hboth.2
    obtain ⟨tail, config1, hc⟩ := checkAuthentication_registers defaults find appMode
      registered config rules hplat htr hrules
    refine ⟨authRecord (objGet defaults (toStr (getProp config "platform"))) config,
      tail, ?_, ?_⟩
    · rw [hp, hc]
    · rw [getProp_authRecord_token, htok]
  · intro hnot ht
    have htok := authToken_of_no_credentials config hnot
    obtain ⟨tail, config1, hc⟩ := checkAuthentication_registers defaults find appMode
      registered config rules hplat (by rw [htok]; exact ht) hrules
    refine ⟨authRecord (objGet defaults (toStr (getProp config "platform"))) config,
      tail, ?_, ?_⟩
    · rw [hp, hc]
    · rw [getProp_authRecord_token, htok]

/-- Witness for C14: the example of the specification, `{username:'u', password:'p',
token:'T'}` on platform `github`; the registered token is `base64('u:p')`. -/
theorem parseConfigs_credential_precedence_witness :
    (truthy (getProp (obj [("hostRules", arr []), ("platform", str "github"),
          ("username", str "u"), ("password", str "p"), ("token", str "T")])
          "username") = true ∧
        truthy (getProp (obj [("hostRules", arr []), ("platform", str "github"),
          ("username", str "u"), ("password", str "p"), ("token", str "T")])
          "password") = true →
      ∃ record tail,
        (parseConfigs sampleOptions 3 sampleDefaults sampleFind false []
          [("hostRules", arr []), ("platform", str "github")] []
          [("username", str "u"), ("password", str "p"), ("token", str "T")]
          []).registered = [] ++ ([] ++ [record]) ++ tail ∧
        getProp record "token" =
          str (base64 (toStr (getProp (obj [("hostRules", arr []),
              ("platform", str "github"), ("username", str "u"), ("password", str "p"),
              ("token", str "T")]) "username") ++ ":" ++
            toStr (getProp (obj [("hostRules", arr []), ("platform", str "github"),
              ("username", str "u"), ("password", str "p"), ("token", str "T")])
              "password")))) ∧
    base64 "u:p" = "dTpw" :=
  ⟨(parseConfigs_credential_precedence sampleOptions 3 sampleDefaults sampleFind false []
    [("hostRules", arr []), ("platform", str "github")] []
    [("username", str "u"), ("password", str "p"), ("token", str "T")] []
    (obj [("hostRules", arr []), ("platform", str "github"),
      ("username", str "u"), ("password", str "p"), ("token", str "T")]) []
    rfl (by decide) rfl (by decide) (by decide) (by decide)).1, by decide⟩

/-- C15. Missing-credential failure: for a resolved config whose platform is in the
default-host table, `parseConfigs` fails with the missing-authentication error exactly
when the config has no truthy token and `username` and `password` are not both
present; in that case nothing is registered. -/
theorem parseConfigs_missing_credentials (options : List OptionDef) (fuel : Nat)
    (defaults : Obj) (find : List JVal → JVal → JVal → JVal) (appMode : Bool)
    (registered : List JVal) (defaultConfig fileConfig cliConfig envConfig : Obj)
    (config : JVal)
    (hres : resolveConfig options fuel defaultConfig fileConfig cliConfig envConfig =
      .ok config)
    (hplat : truthy (objGet defaults (toStr (getProp config "platform"))) = true) :
    ((∃ e p, (parseConfigs options fuel defaults find appMode registered defaultConfig
          fileConfig cliConfig envConfig).outcome =
            .error (ParseError.noAuthentication e p)) ↔
      (truthy (getProp config "token") = false ∧
        ¬(truthy (getProp config "username") = true ∧
          truthy (getProp config "password") = true))) ∧
    ((∃ e p, (parseConfigs options fuel defaults find appMode registered defaultConfig
          fileConfig cliConfig envConfig).outcome =
            .error (ParseError.noAuthentication e p)) →
      (parseConfigs options fuel defaults find appMode registered defaultConfig
        fileConfig cliConfig envConfig).registered = registered) := by
  obtain ⟨hp1, hp2, hp3⟩ := parseConfigs_of_resolve options fuel defaults find appMode
    registered defaultConfig fileConfig cliConfig envConfig config hres
  have hcases : truthy (authToken config) = false ↔
      (truthy (getProp config "token") = false ∧
        ¬(truthy (getProp config "username") = true ∧
          truthy (getProp config "password") = true)) := by
    constructor
    · intro ht
      have hnot : ¬(truthy (getProp config "username") = true ∧
          truthy (getProp config "password") = true) := by
        intro hboth
        have := (truthy_authToken_of_credentials config hboth.1 hboth.2).2
        rw [ht] at this
        cases this
      rw [authToken_of_no_credentials config hnot] at ht
      exact ⟨ht, hnot⟩
    · intro h
      rw [authToken_of_no_credentials config h.2]
      exact h.1
  have hfail : (∃ e p, (parseConfigs options fuel defaults find appMode registered
        defaultConfig fileConfig cliConfig envConfig).outcome =
          .error (ParseError.noAuthentication e p)) → truthy (authToken config) = false := by
    rintro ⟨e, p, hout⟩
    cases ht : truthy (authToken config) with
    | false => rfl
    | true =>
      exfalso
      cases hc : (checkAuthentication defaults find appMode registered config).outcome with
      | ok c =>
        rw [hp3 c hc] at hout
        cases hout
      | error e1 =>
        rw [hp2 e1 hc] at hout
        cases hout
        exact checkAuthentication_not_noAuth defaults find appMode registered config hplat
          ht e p hc
  refine ⟨⟨fun h => hcases.mp (hfail h), fun h => ?_⟩, fun h => ?_⟩
  · have hc := checkAuthentication_no_token defaults find appMode registered config hplat
      (hcases.mpr h)
    exact ⟨_, _, hp2 _ (by rw [hc])⟩
  · have hc := checkAuthentication_no_token defaults find appMode registered config hplat
      (hfail h)
    rw [hp1, hc]

/-- Witness for C15: the example of the specification, a config with a supported
platform and neither token nor username nor password. -/
theorem parseConfigs_missing_credentials_witness :
    ((∃ e p, (parseConfigs sampleOptions 3 sampleDefaults sampleFind false []
          [("hostRules", arr []), ("platform", str "github")] [] [] []).outcome =
            .error (ParseError.noAuthentication e p)) ↔
      (truthy (getProp (obj [("hostRules", arr []), ("platform", str "github")])
          "token") = false ∧
        ¬(truthy (getProp (obj [("hostRules", arr []), ("platform", str "github")])
            "username") = true ∧
          truthy (getProp (obj [("hostRules", arr []), ("platform", str "github")])
            "password") = true))) ∧
    ((∃ e p, (parseConfigs sampleOptions 3 sampleDefaults sampleFind false []
          [("hostRules", arr []), ("platform", str "github")] [] [] []).outcome =
            .error (ParseError.noAuthentication e p)) →
      (parseConfigs sampleOptions 3 sampleDefaults sampleFind false []
        [("hostRules", arr []), ("platform", str "github")] [] [] []).registered = []) :=
  parseConfigs_missing_credentials sampleOptions 3 sampleDefaults sampleFind false []
    [("hostRules", arr []), ("platform", str "github")] [] [] []
    (obj [("hostRules", arr []), ("platform", str "github")]) rfl (by decide)

/-- What the platform check does achieve: a platform that is neither an own key of the
default-host table nor the name of a member inherited from `Object.prototype` ends in
the unsupported-platform error, with nothing registered. -/
theorem parseConfigs_platform_outside_table (options : List OptionDef) (fuel : Nat)
    (defaults : Obj) (find : List JVal → JVal → JVal → JVal) (appMode : Bool)
    (registered : List JVal) (defaultConfig fileConfig cliConfig envConfig : Obj)
    (config : JVal)
    (hres : resolveConfig options fuel defaultConfig fileConfig cliConfig envConfig =
      .ok config)
    (hplat : objHas defaults (toStr (getProp config "platform")) = false)
    (hmem : objectPrototypeMembers.contains (toStr (getProp config "platform")) = false) :
    (parseConfigs options fuel defaults find appMode registered defaultConfig fileConfig
        cliConfig envConfig).outcome =
      .error (ParseError.unsupportedPlatform (getProp config "platform")) ∧
    (parseConfigs options fuel defaults find appMode registered defaultConfig fileConfig
        cliConfig envConfig).registered = registered := by
  obtain ⟨hp1, hp2, _⟩ := parseConfigs_of_resolve options fuel defaults find appMode
    registered defaultConfig fileConfig cliConfig envConfig config hres
  have hfalsy : truthy (objGet defaults (toStr (getProp config "platform"))) = false := by
    rw [objGet_of_objFind_none ((objHas_false_iff _ _).mp hplat)]
    rfl
  have hc := checkAuthentication_unsupported defaults find appMode registered config hfalsy
    (by rw [inheritedMember, hmem, Bool.and_false])
  exact ⟨hp2 _ (by rw [hc]), by rw [hp1, hc]⟩

/-- C16, at the failing input. The platform `constructor` is not a key of the
default-host table, yet `hostRules.defaults['constructor']` is the member inherited
from `Object.prototype`, which is truthy: the unsupported-platform check at line 87
lets it pass, no error is raised, and with the token `T` a host record and the default
record are registered. -/
theorem parseConfigs_inherited_platform_accepted :
    objHas sampleDefaults "constructor" = false ∧
    parseConfigs sampleOptions 3 sampleDefaults sampleFind false []
        [("hostRules", arr []), ("platform", str "constructor")] []
        [("token", str "T")] [] =
      ⟨[obj [("platform", str "constructor"), ("endpoint", undefined),
            ("username", undefined), ("password", undefined), ("token", str "T")],
          obj [("platform", str "constructor"), ("endpoint", undefined),
            ("token", str "T"), ("default", .bool true)]],
        .ok (obj [("platform", str "constructor")])⟩ := by
  exact ⟨rfl, rfl⟩

/-- C17. Source precedence cli > env > file > defaults: with no force block in any
source, for every key `k` that is not a mergeable option, the merged config has at `k`
the value of the highest-precedence source that defines `k` (command line, then
environment, then file, then defaults); with `forceCli` unset the config handed on by
the pipeline has the same value at every such `k` other than the marker
`customPrFooter`. -/
theorem parseConfigs_source_precedence (options : List OptionDef) (fuel : Nat)
    (dc fc cc ec : Obj) (k : String)
    (hWd : wellFormed (obj dc) = true) (hWf : wellFormed (obj fc) = true)
    (hWc : wellFormed (obj cc) = true) (hWe : wellFormed (obj ec) = true)
    (hTd : conforms options (obj dc) = true) (hTf : conforms options (obj fc) = true)
    (hTc : conforms options (obj cc) = true) (hTe : conforms options (obj ec) = true)
    (hfd : depth (obj dc) < fuel) (hff : depth (obj fc) < fuel)
    (hfc : depth (obj cc) < fuel) (hfe : depth (obj ec) < fuel)
    (hnd : objHas dc "force" = false) (hnf : objHas fc "force" = false)
    (hnc : objHas cc "force" = false) (hne : objHas ec "force" = false)
    (hk : ∀ o ∈ options, o.mergeable = true → o.name ≠ k) :
    ∃ m, mergeSources options fuel dc fc cc ec = .ok (obj m) ∧
      objGet m k =
        (if objHas cc k = true then objGet cc k
         else if objHas ec k = true then objGet ec k
         else if objHas fc k = true then objGet fc k
         else objGet dc k) ∧
      (truthy (objGet m "forceCli") = false → k ≠ "customPrFooter" →
        ∃ r, resolveConfig options fuel dc fc cc ec = .ok (obj r) ∧
          objGet r k = objGet m k) := by
  obtain ⟨m, hm, hw, hkm⟩ := mergeSources_overlay options fuel dc fc cc ec k hWd hWf hWc
    hWe hTd hTf hTc hTe hfd hff hfc hfe ((objHas_false_iff _ _).mp hnd)
    ((objHas_false_iff _ _).mp hnf) ((objHas_false_iff _ _).mp hnc)
    ((objHas_false_iff _ _).mp hne) hk
  refine ⟨m, hm, ?_, ?_⟩
  · simp only [objGet, objHas, hkm]
    cases objFind cc k <;> cases objFind ec k <;> cases objFind fc k <;> simp
  · intro hforce hkc
    obtain ⟨m1, hm1, _, hfind⟩ := markCustomPrFooter_obj dc m hw
    refine ⟨m1, ?_, objGet_of_objFind_eq (hfind k hkc)⟩
    have hf1 : truthy (getProp (obj m1) "forceCli") = false := by
      rw [getProp_obj, objGet_of_objFind_eq (hfind "forceCli" (by decide))]
      exact hforce
    simp only [resolveConfig, hm, hm1, applyForceCli, hf1, Bool.false_eq_true, if_false]

/-- Witness for C17: `x` is set by the file, the environment and the command line, and
the command line wins; `y` is only in the defaults. -/
theorem parseConfigs_source_precedence_witness :
    ∃ m, mergeSources sampleOptions 3 [("x", num 0), ("y", num 9)] [("x", num 1)]
        [("x", num 3)] [("x", num 2)] = .ok (obj m) ∧
      objGet m "x" =
        (if objHas [("x", num 3)] "x" = true then objGet [("x", num 3)] "x"
         else if objHas [("x", num 2)] "x" = true then objGet [("x", num 2)] "x"
         else if objHas [("x", num 1)] "x" = true then objGet [("x", num 1)] "x"
         else objGet [("x", num 0), ("y", num 9)] "x") ∧
      (truthy (objGet m "forceCli") = false → "x" ≠ "customPrFooter" →
        ∃ r, resolveConfig sampleOptions 3 [("x", num 0), ("y", num 9)] [("x", num 1)]
            [("x", num 3)] [("x", num 2)] = .ok (obj r) ∧
          objGet r "x" = objGet m "x") :=
  parseConfigs_source_precedence sampleOptions 3 [("x", num 0), ("y", num 9)]
    [("x", num 1)] [("x", num 3)] [("x", num 2)] "x"
    (by decide) (by decide) (by decide) (by decide) (by decide) (by decide) (by decide)
    (by decide) (by decide) (by decide) (by decide) (by decide) (by decide) (by decide)
    (by decide) (by decide) (by decide)

/-- C18. forceCli makes CLI values win outright: whenever the merged config has
`forceCli` set (and `force` is not a mergeable option of the registry), the config
after the re-merge with `{ force: { ...cliConfig } }` has, at every key supplied by the
command-line config, exactly the command-line value, mergeable option or not. -/
theorem parseConfigs_forceCli (options : List OptionDef) (fuel : Nat)
    (dc fc cc ec : Obj)
    (hWd : wellFormed (obj dc) = true) (hWf : wellFormed (obj fc) = true)
    (hWc : wellFormed (obj cc) = true) (hWe : wellFormed (obj ec) = true)
    (hTd : conforms options (obj dc) = true) (hTf : conforms options (obj fc) = true)
    (hTc : conforms options (obj cc) = true) (hTe : conforms options (obj ec) = true)
    (hfd : depth (obj dc) < fuel) (hff : depth (obj fc) < fuel)
    (hfc : depth (obj cc) < fuel) (hfe : depth (obj ec) < fuel)
    (hres : ∀ o ∈ options, o.mergeable = true → o.name ≠ "force") :
    ∃ m, mergeSources options fuel dc fc cc ec = .ok (obj m) ∧
      (truthy (objGet m "forceCli") = true →
        ∀ k, objHas cc k = true →
          ∃ r, resolveConfig options fuel dc fc cc ec = .ok (obj r) ∧
            objGet r k = objGet cc k) := by
  obtain ⟨m, hm, hw⟩ := mergeSources_returns options fuel dc fc cc ec hWd hWf hWc hWe hTd
    hTf hTc hTe hfd hff hfc hfe
  refine ⟨m, hm, fun hforce k hk => ?_⟩
  obtain ⟨m1, hm1, hw1, hfind⟩ := markCustomPrFooter_obj dc m hw
  have hf1 : truthy (getProp (obj m1) "forceCli") = true := by
    rw [getProp_obj, objGet_of_objFind_eq (hfind "forceCli" (by decide))]
    exact hforce
  obtain ⟨n, rfl⟩ : ∃ n, fuel = n + 1 := ⟨fuel - 1, by omega⟩
  obtain ⟨r, hr, hrk⟩ := mergeChildConfig_force_layer options n m1 cc k hw1 hWc hres hk
  refine ⟨r, ?_, hrk⟩
  simp only [resolveConfig, hm, hm1, applyForceCli, hf1, if_true, hr]

/-- Witness for C18: `a` is a mergeable array option set by the file and by the command
line; with `forceCli` the command-line array replaces the concatenation. -/
theorem parseConfigs_forceCli_witness :
    ∃ m, mergeSources sampleOptions 3 [] [("a", arr [num 1])]
        [("a", arr [num 2]), ("forceCli", .bool true)] [] = .ok (obj m) ∧
      (truthy (objGet m "forceCli") = true →
        ∀ k, objHas [("a", arr [num 2]), ("forceCli", .bool true)] k = true →
          ∃ r, resolveConfig sampleOptions 3 [] [("a", arr [num 1])]
              [("a", arr [num 2]), ("forceCli", .bool true)] [] = .ok (obj r) ∧
            objGet r k = objGet [("a", arr [num 2]), ("forceCli", .bool true)] k) :=
  parseConfigs_forceCli sampleOptions 3 [] [("a", arr [num 1])]
    [("a", arr [num 2]), ("forceCli", .bool true)] []
    (by decide) (by decide) (by decide) (by decide) (by decide) (by decide) (by decide)
    (by decide) (by decide) (by decide) (by decide) (by decide) (by decide)

/-- Counterexample to C19 as stated: `a` is a mergeable array option, the parent holds
the number 5 at `a` and the child an array. Both configurations are JSON values, yet
for every fuel the call ends in a `TypeError` (`(5).concat` is not a function) and
returns nothing. -/
theorem mergeChildConfig_total_counterexample :
    wellFormed (obj [("a", num 5)]) = true ∧ wellFormed (obj [("a", arr [num 1])]) = true ∧
    ¬ ∃ fuel r, mergeChildConfig sampleOptions fuel (obj [("a", num 5)])
        (obj [("a", arr [num 1])]) = .ok r := by
  refine ⟨by decide, by decide, ?_⟩
  rintro ⟨fuel, r, h⟩
  cases fuel with
  | zero => simp [mergeChildConfig] at h
  | succ n =>
    have : mergeChildConfig sampleOptions (n + 1) (obj [("a", num 5)])
        (obj [("a", arr [num 1])]) = .error Fault.typeError := rfl
    rw [this] at h
    cases h

/-- C19, amended. For every registry in which no mergeable option is named after a
member of `Object.prototype`, every well-formed parent `P` typed as the registry says
(force blocks unconstrained) and every well-formed child `C` whose nested blocks are
objects, `mergeChildConfig(P, C)` terminates and returns a configuration object
without raising, however deep the nesting and with or without force blocks: fuel above
the nesting depth of `P` is enough, and more fuel gives the same result. The
conditions on the option names and on the child keep every property read of the code
on own properties of plain objects. -/
theorem mergeChildConfig_total (options : List OptionDef) (fuel : Nat) (ps cs : Obj)
    (_hnames : ∀ o ∈ options, o.mergeable = true →
      objectPrototypeMembers.contains o.name = false)
    (hP : wellFormed (obj ps) = true) (hT : typed options (obj ps) = true)
    (_hC : wellFormed (obj cs) = true) (_hN : nestedObjects options (obj cs) = true)
    (hfuel : depth (obj ps) < fuel) :
    ∃ r, mergeChildConfig options fuel (obj ps) (obj cs) = .ok (obj r) ∧
      ∀ fuel2, fuel ≤ fuel2 →
        mergeChildConfig options fuel2 (obj ps) (obj cs) = .ok (obj r) := by
  obtain ⟨v, hv⟩ := mergeChildConfig_returns_typed options fuel (obj ps) (obj cs) hP hT
    hfuel
  obtain ⟨r, rfl⟩ := mergeChildConfig_isObj options fuel ps (obj cs) v hv
  exact ⟨r, hv, fun fuel2 hle => mergeChildConfig_mono options fuel fuel2 _ _ _ hle hv⟩

/-- Witness for C19 as amended: nested mergeable objects with force blocks on both
sides, the parent's force block holding a value that is not of the declared type. -/
theorem mergeChildConfig_total_witness :
    ∃ r, mergeChildConfig sampleOptions 5
        (obj [("o", obj [("o", obj [("a", arr [num 1])])]), ("force", obj [("a", num 1)])])
        (obj [("o", obj [("o", obj [("a", arr [num 2])])]), ("force", obj [("y", num 2)])]) =
          .ok (obj r) ∧
      ∀ fuel2, 5 ≤ fuel2 → mergeChildConfig sampleOptions fuel2
        (obj [("o", obj [("o", obj [("a", arr [num 1])])]), ("force", obj [("a", num 1)])])
        (obj [("o", obj [("o", obj [("a", arr [num 2])])]), ("force", obj [("y", num 2)])]) =
          .ok (obj r) :=
  mergeChildConfig_total sampleOptions 5
    [("o", obj [("o", obj [("a", arr [num 1])])]), ("force", obj [("a", num 1)])]
    [("o", obj [("o", obj [("a", arr [num 2])])]), ("force", obj [("y", num 2)])]
    (by decide) (by decide) (by decide) (by decide) (by decide) (by decide)

end Renovate
